import Mathlib

/-!
Shallow embedding of parts of the mlx core (fast.cpp, random.cpp,
backend/common/utils.h, python/src/indexing.cpp) used to settle the
specification claims.  Machine floats are modelled as exact rationals
(or reals where transcendental functions appear); machine integers as
naturals with explicit bounds.
-/

namespace Mlx

/-! ### Shape and stride utilities (backend/common/utils.h) -/

/-- Metadata of an `array` relevant to buffer donation: the donatable
permission bit, the item size in bytes, the buffer size in bytes as
returned by `buffer_size()`, and the total byte count `nbytes()`. -/
structure ArrayMeta where
  donatable : Bool
  itemsize : Nat
  buffer_size : Nat
  nbytes : Nat

/-- Embeds `is_donatable` from `mlx/backend/common/utils.h`: the input is
donatable, item sizes match, and the input buffer fits in the output byte
count plus a fixed slack (`donation_extra`) of 16384 bytes. -/
def is_donatable (a b : ArrayMeta) : Bool :=
  a.donatable && (a.itemsize == b.itemsize) && (a.buffer_size ≤ b.nbytes + 16384)

/-- Embeds the loop of `elem_to_loc(elem, shape, strides)`: dimensions are
processed from the last to the first, each step adding
`(elem mod extent) * stride` and dividing `elem` by the extent.  The
argument list here is the reversed `zip` of shape and strides, matching the
backward iteration of the source loop. -/
def elemToLocRev (elem : Nat) : List (Nat × Int) → Int
  | [] => 0
  | (s, st) :: rest => (elem % s : Nat) * st + elemToLocRev (elem / s) rest

/-- Embeds `elem_to_loc(int elem, const Shape& shape, const Strides& strides)`
from `mlx/backend/common/utils.h`. -/
def elem_to_loc (elem : Nat) (shape : List Nat) (strides : List Int) : Int :=
  elemToLocRev elem ((shape.zip strides).reverse)

/-- Embeds `make_contiguous_strides`: stride of the last dimension is 1 and
each earlier stride is the product of the later extents. -/
def make_contiguous_strides (shape : List Nat) : List Int :=
  (List.range shape.length).map
    (fun i => ((shape.drop (i + 1)).prod : Int))

/-- Shape and strides of an array together with its row-contiguity flag, as
consumed by the array overload of `elem_to_loc`. -/
structure ArrayView where
  shape : List Nat
  strides : List Int
  row_contiguous : Bool

/-- Embeds the array overload
`elem_to_loc(int elem, const array& a)`: a row-contiguous array short
circuits to `elem`, otherwise the shape/strides loop runs. -/
def elem_to_loc_array (elem : Nat) (a : ArrayView) : Int :=
  if a.row_contiguous then elem else elem_to_loc elem a.shape a.strides

/-- The i-th coordinate of the row-major multi-index of linear element
`elem` in `shape`: divide by the product of the later extents, reduce
modulo this dimension's extent.  This is the mathematical description used
by the claim, independent of the source loop. -/
def rowMajorCoord (shape : List Nat) (elem i : Nat) : Nat :=
  (elem / ((shape.drop (i + 1)).prod)) % shape.getD i 1

/-! ### Affine quantization codec (fast.cpp: `pack_and_quantize`,
`affine_quantize`, `affine_dequantize`).

Floats are modelled as exact rationals.  A tensor with last dimension
divisible by `group_size` is modelled, after the `reshape(w, {-1,
w.shape(-1)/group_size, group_size})` of the source, as the list of its
groups of `group_size` consecutive elements. -/

/-- Round to nearest integer with halves away from zero: the semantics of
the `round` op (C++ `std::round`) used by `pack_and_quantize` and by the
`q0` computation of `affine_quantize`. -/
def roundAway (q : ℚ) : ℤ := if q < 0 then -⌊-q + 1 / 2⌋ else ⌊q + 1 / 2⌋

/-- `clip(x, lo, hi)` = `minimum(maximum(x, lo), hi)` on integer codes. -/
def clipZ (x lo hi : ℤ) : ℤ := min (max x lo) hi

/-- The reduction `max(packed_w, axis=-1)` over one quantization group. -/
def wMax : List ℚ → ℚ
  | [] => 0
  | [x] => x
  | x :: y :: xs => max x (wMax (y :: xs))

/-- The reduction `min(packed_w, axis=-1)` over one quantization group. -/
def wMin : List ℚ → ℚ
  | [] => 0
  | [x] => x
  | x :: y :: xs => min x (wMin (y :: xs))

/-- The scale floor `eps = 1e-7` of `affine_quantize` (the float32 literal
is modelled by the exact decimal it denotes). -/
def quantEps : ℚ := 1 / 10 ^ 7

/-- `n_bins = 2**bits - 1` as a rational. -/
def nBins (bits : ℕ) : ℚ := 2 ^ bits - 1

/-- `mask = greater(abs(w_min), abs(w_max))` of `affine_quantize`. -/
def groupMask (g : List ℚ) : Prop := |wMax g| < |wMin g|

instance (g : List ℚ) : Decidable (groupMask g) := by
  unfold groupMask; infer_instance

/-- The initial per-group scale of `affine_quantize`:
`scales = maximum(divide(subtract(w_max, w_min), n_bins), eps)` followed by
`scales = where(mask, scales, negative(scales))`. -/
def scaleInit (g : List ℚ) (bits : Nat) : ℚ :=
  if groupMask g
  then max ((wMax g - wMin g) / nBins bits) quantEps
  else -max ((wMax g - wMin g) / nBins bits) quantEps

/-- `edge = where(mask, w_min, w_max)`: the anchor value of the group. -/
def groupEdge (g : List ℚ) : ℚ := if groupMask g then wMin g else wMax g

/-- `q0 = round(divide(edge, scales))`. -/
def groupQ0 (g : List ℚ) (bits : Nat) : ℤ :=
  roundAway (groupEdge g / scaleInit g bits)

/-- `scales = where(not_equal(q0, zero), divide(edge, q0), scales)`. -/
def groupScale (g : List ℚ) (bits : Nat) : ℚ :=
  if groupQ0 g bits = 0 then scaleInit g bits
  else groupEdge g / (groupQ0 g bits : ℚ)

/-- `biases = where(equal(q0, zero), zero, edge)`. -/
def groupBias (g : List ℚ) (bits : Nat) : ℚ :=
  if groupQ0 g bits = 0 then 0 else groupEdge g

/-- The elementwise quantization step of `pack_and_quantize`:
`astype(clip(round(divide(subtract(packed_w, biases), scales)), 0, n_bins),
uint32)`. -/
def quantizeCode (g : List ℚ) (bits : Nat) (w : ℚ) : ℤ :=
  clipZ (roundAway ((w - groupBias g bits) / groupScale g bits)) 0 (2 ^ bits - 1)

/-- All integer codes of one group. -/
def groupCodes (g : List ℚ) (bits : Nat) : List Nat :=
  g.map (fun w => (quantizeCode g bits w).toNat)

/-- The low `n` bits of `w`, least significant first: models the bit-plane
extraction `bitwise_and(right_shift(w, arange(bits)), 1)`. -/
def toBitsLE : Nat → Nat → List Nat
  | 0, _ => []
  | n + 1, w => (w % 2) :: toBitsLE n (w / 2)

/-- Reassembles a little-endian bit list into a word: models
`sum(left_shift(bits, arange(32)))`. -/
def fromBitsLE : List Nat → Nat
  | [] => 0
  | b :: rest => b + 2 * fromBitsLE rest

/-- Splits a list into consecutive chunks of `n` elements: models the
`reshape` steps of `pack_and_quantize` and `affine_dequantize`. -/
def chunkList (n : Nat) : List α → List (List α)
  | [] => []
  | x :: xs =>
    if n = 0 then []
    else (x :: xs).take n :: chunkList n ((x :: xs).drop n)
termination_by l => l.length
decreasing_by simp_all [List.length_drop]; omega

/-- The bit-packing of `pack_and_quantize`: the codes' `bits`-wide fields
are laid out consecutively (least significant bit first) and reassembled 32
bits per `uint32` word.  When `bits` is a power of two this is the
shift-and-sum `sum(multiply(packed_w, shifts))` over `32/bits` codes per
word; otherwise it is the bit-by-bit path — both lay out the identical bit
stream. -/
def packBits (bits : Nat) (codes : List Nat) : List Nat :=
  (chunkList 32 ((codes.map (toBitsLE bits)).flatten)).map fromBitsLE

/-- The unpacking of `affine_dequantize`: each word's 32 bits are extracted
(least significant first) and regrouped into `bits`-wide codes.  This is
the source's bit-by-bit branch; the power-of-two shift-trick branch
extracts the same fields. -/
def unpackBits (bits : Nat) (words : List Nat) : List Nat :=
  (chunkList bits ((words.map (toBitsLE 32)).flatten)).map fromBitsLE

/-- `pack_and_quantize` restricted to one group: quantize each element and
pack the codes. -/
def pack_and_quantize (g : List ℚ) (bits : Nat) : List Nat :=
  packBits bits (groupCodes g bits)

/-- The per-group output triple (packed words, scale, bias) of the
`affine_quantize` fallback. -/
def affine_quantize_group (g : List ℚ) (bits : Nat) : List Nat × ℚ × ℚ :=
  (pack_and_quantize g bits, groupScale g bits, groupBias g bits)

/-- The `affine_dequantize` fallback restricted to one group: unpack the
codes, then `w = code * scale + bias`. -/
def affine_dequantize_group (words : List Nat) (scale bias : ℚ)
    (bits : Nat) : List ℚ :=
  (unpackBits bits words).map (fun (c : Nat) => (c : ℚ) * scale + bias)

/-- `affine_quantize` on a flattened tensor: split into groups of
`group_size` along the last axis and quantize each group. -/
def affine_quantize (w : List ℚ) (group_size bits : Nat) :
    List (List Nat × ℚ × ℚ) :=
  (chunkList group_size w).map (fun g => affine_quantize_group g bits)

/-- `affine_dequantize` on the list of per-group triples. -/
def affine_dequantize (triples : List (List Nat × ℚ × ℚ)) (bits : Nat) :
    List ℚ :=
  (triples.map (fun t => affine_dequantize_group t.1 t.2.1 t.2.2 bits)).flatten

/-- The anchor in the words of the specification: whichever of max/min has
the larger magnitude (ties resolved to the max, as the strict `greater` of
the source does). -/
def specAnchor (g : List ℚ) : ℚ :=
  if |wMax g| < |wMin g| then wMin g else wMax g

/-- The initial scale in the words of the specification claim:
`max((max-min)/(2^bits - 1), 1e-7)`, "sign-flipped to match the anchor's
sign".  This is the claim's formula, written for comparison with
`scaleInit`; it is not the code's behavior. -/
def specScaleInitClaim (g : List ℚ) (bits : Nat) : ℚ :=
  if specAnchor g < 0
  then -max ((wMax g - wMin g) / nBins bits) quantEps
  else max ((wMax g - wMin g) / nBins bits) quantEps

/-- `q0` of the claim's pipeline, computed with the claim's initial scale. -/
def specQ0Claim (g : List ℚ) (bits : Nat) : ℤ :=
  roundAway (specAnchor g / specScaleInitClaim g bits)

/-- The final scale of the claim's pipeline. -/
def specScaleClaim (g : List ℚ) (bits : Nat) : ℚ :=
  if specQ0Claim g bits = 0 then specScaleInitClaim g bits
  else specAnchor g / (specQ0Claim g bits : ℚ)

/-- The final bias of the claim's pipeline. -/
def specBiasClaim (g : List ℚ) (bits : Nat) : ℚ :=
  if specQ0Claim g bits = 0 then 0 else specAnchor g

/-! ### Random engine (random.cpp: `KeySequence`, `uniform`, `bernoulli`) -/

/-- A PRNG key: two uint32 words, as produced by `key(seed)`. -/
abbrev Key := Nat × Nat

/-- Modelled from the spec: `split(key)` derives two fresh child keys from
the stored key through the counter-based bit generator (the `RandomBits`
primitive, whose evaluation is in the backend and not under src/).  The
spec requires the split to be deterministic and collision-free — no two
`next()` calls return the same key and the retained half differs from the
parent — which this model realizes by bumping one word of each child
modulo 2^32. -/
def splitKey (k : Key) : Key × Key :=
  (((k.1 + 1) % 2 ^ 32, k.2), (k.1, (k.2 + 1) % 2 ^ 32))

/-- `KeySequence::next()`: split the stored key, store the first half,
return the second.  The result is (returned key, new stored key). -/
def keySequenceNext (state : Key) : Key × Key :=
  ((splitKey state).2, (splitKey state).1)

/-- The floating dtypes accepted by `uniform`. -/
inductive FloatDtype
  | float16
  | bfloat16
  | float32
deriving DecidableEq

/-- The clamp bound of `uniform`: `nextafter(1.0, 0.0)` for float32 and
`below_one<T>()` (the predecessor of 1) for the half-precision types, each
modelled by the exact value of the float constant. -/
def belowOne : FloatDtype → ℚ
  | .float32 => 1 - 1 / 2 ^ 24
  | .float16 => 1 - 1 / 2 ^ 11
  | .bfloat16 => 1 - 1 / 2 ^ 8

/-- The float32 constant `maxval = array(UINT32_MAX, float32)`: 4294967295
is not representable in float32 and rounds to 2^32, which is the exact
value of the stored constant. -/
def uniformMaxval : ℚ := 2 ^ 32

/-- One element of `uniform(low, high, shape, dtype, key)`: the raw uint32
draw `u` is divided by `maxval`, clamped by `minimum` against `belowOne`,
cast to the target dtype (value-exact in this model) and scaled by
`range * out + low`. -/
def uniformElem (low high : ℚ) (dtype : FloatDtype) (u : Nat) : ℚ :=
  (high - low) * min ((u : ℚ) / uniformMaxval) (belowOne dtype) + low

/-- The dtype/shape data of the probability array `p` consumed by
`bernoulli`. -/
structure PArray where
  dtypeFloating : Bool
  shape : List Nat

/-- Broadcast of one dimension pair, NumPy style. -/
def broadcastDim (a b : Nat) : Option Nat :=
  if a = b then some a else if a = 1 then some b
  else if b = 1 then some a else none

/-- `broadcast_shapes`: align from the right, pad the shorter shape with
leading 1s, combine dimension by dimension. -/
def broadcastShapes (s1 s2 : List Nat) : Option (List Nat) :=
  let n := max s1.length s2.length
  let p1 := List.replicate (n - s1.length) 1 ++ s1
  let p2 := List.replicate (n - s2.length) 1 ++ s2
  (p1.zip p2).mapM (fun pr => broadcastDim pr.1 pr.2)

/-- True exactly on the error constructor. -/
def exceptIsError {α : Type} : Except String α → Bool
  | .error _ => true
  | .ok _ => false

/-- Embeds `bernoulli(p, shape, key)` as a transformer of the process-wide
default `KeySequence` state, keeping the source's statement order: the
dtype check throws before any key is drawn; `bits(shape, key)` draws from
the default sequence when no key is supplied; only afterwards is the
result shape (the broadcast of `shape` with `p`'s shape) compared against
`shape`.  The returned value is the result shape, standing in for the
lazily-built array. -/
def bernoulli (p : PArray) (shape : List Nat) (key : Option Key)
    (state : Key) : Except String (List Nat) × Key :=
  if p.dtypeFloating = false then
    (.error "[bernoulli] bernoulli probability p must be a float type.",
      state)
  else
    let state2 : Key := match key with
      | some _ => state
      | none => (keySequenceNext state).2
    match broadcastShapes shape p.shape with
    | none => (.error "[bernoulli] shapes cannot be broadcast together.",
        state2)
    | some rshape =>
      if rshape = shape then (.ok rshape, state2)
      else (.error "[bernoulli] shape of p is incompatible with argument shape.",
        state2)

/-! ### Fancy-indexing ellipsis expansion (python/src/indexing.cpp:
`mlx_expand_ellipsis`) -/

/-- The six index-entry kinds accepted by `is_valid_index_type` (slice,
integer, index array, None, ellipsis, list); the payloads irrelevant to
ellipsis expansion are dropped. -/
inductive IndexEntry
  | slice (start stop step : Int)
  | intIdx (i : Int)
  | arrayIdx
  | listIdx
  | noneIdx
  | ellipsis
deriving DecidableEq

/-- `idx.is_none()`. -/
def entryIsNone : IndexEntry → Bool
  | .noneIdx => true
  | _ => false

/-- `nb::ellipsis().is(idx)`. -/
def entryIsEllipsis : IndexEntry → Bool
  | .ellipsis => true
  | _ => false

/-- The count of non-None entries, as accumulated by
`non_none_indices_before/after`. -/
def countNonNone (l : List IndexEntry) : Nat :=
  (l.filter (fun e => !entryIsNone e)).length

/-- The block of full slices `slice(0, shape[axis], 1)` that replaces the
ellipsis: one for each axis from `non_none_indices_before` up to
`shape.size() - non_none_indices_after` (the source indexes `shape[axis]`
with unsigned arithmetic there, so the model's truncated subtraction
matches it only on index tuples that do not exceed the rank). -/
def expandSlices (shape : List Int) (nnb nna : Nat) : List IndexEntry :=
  ((shape.drop nnb).take (shape.length - nna - nnb)).map
    (fun s => IndexEntry.slice 0 s 1)

/-- Embeds `mlx_expand_ellipsis(shape, entries)` proper: scan up to the
first ellipsis, reject a second ellipsis in the remainder, then splice the
full slices in place of the ellipsis and report the non-None index
count. -/
def mlx_expand_ellipsis (shape : List Int) (entries : List IndexEntry) :
    Except String (Nat × List IndexEntry) :=
  match entries.dropWhile (fun e => !entryIsEllipsis e) with
  | [] => .ok (countNonNone entries, entries)
  | _ :: post =>
    if post.any entryIsEllipsis then
      .error "An index can only have a single ellipsis (...)"
    else
      .ok (countNonNone (entries.takeWhile (fun e => !entryIsEllipsis e)) +
          countNonNone post +
          (expandSlices shape
            (countNonNone (entries.takeWhile (fun e => !entryIsEllipsis e)))
            (countNonNone post)).length,
        entries.takeWhile (fun e => !entryIsEllipsis e) ++
          expandSlices shape
            (countNonNone (entries.takeWhile (fun e => !entryIsEllipsis e)))
            (countNonNone post) ++ post)

end Mlx

/-! ### Real-valued composites (fast.cpp: `rms_norm`, `rope`,
`scaled_dot_product_attention`).  These use `Real.sqrt`, `cos`, `sin` and
`exp`, so the section is noncomputable; dtype casts (`astype`) are
value-exact in this model. -/

namespace Mlx

noncomputable section

/-- `mean(l, axis=-1)` over one row. -/
def meanList (l : List ℝ) : ℝ := l.sum / l.length

/-- `rsqrt(v)`. -/
def rsqrt (v : ℝ) : ℝ := (Real.sqrt v)⁻¹

/-- The `rms_norm` fallback on one row of the input (the op normalizes
along the last axis; rows are independent): cast to float32 (value-exact
here), multiply by `rsqrt(mean(square(x)) + eps)`, cast back to the
promoted output type (value-exact), then multiply elementwise by the
weight when one was supplied. -/
def rms_norm (x : List ℝ) (weight : Option (List ℝ)) (eps : ℝ) : List ℝ :=
  let ms := meanList (x.map (fun v => v * v))
  let y := x.map (fun v => v * rsqrt (ms + eps))
  match weight with
  | some w => y.zipWith (fun a b => a * b) w
  | none => y

/-- The specification's recipe for `rms_norm` without weight:
`x / sqrt(mean(x², axis=-1) + eps)`, written from the spec's words for
comparison with the fallback. -/
def rmsNormSpecFormula (x : List ℝ) (eps : ℝ) : List ℝ :=
  x.map (fun v => v / Real.sqrt (meanList (x.map (fun t => t * t)) + eps))

/-- `theta[t, k] = ((t + offset) * scale) * inv_freq[k]` of the rope
fallback (positions `arange(T) + offset`, scaled, times inverse
frequencies). -/
def ropeTheta (offset : Int) (scale : ℝ) (invFreq : Nat → ℝ) (t k : Nat) :
    ℝ :=
  ((t : ℝ) + (offset : ℝ)) * scale * invFreq k

/-- The default geometric inverse-frequency schedule
`exp(-k * log(base) / half_dims)` used when no explicit `freqs` array is
given. -/
def defaultInvFreq (base : ℝ) (halfDims : Nat) (k : Nat) : ℝ :=
  Real.exp (-(k : ℝ) * (Real.log base / halfDims))

/-- The `rope` fallback after flattening the leading axes, written
elementwise on a (batch, position, channel) tensor.  `traditional`
interleaves pairs `(x[2i], x[2i+1])`; the non-traditional layout splits
the first `dims` channels into two halves.  `forward` applies
`(x1*cos - x2*sin, x1*sin + x2*cos)` and the adjoint (`forward = false`,
used by the VJP) applies `(x2*sin + x1*cos, x2*cos - x1*sin)`.  Channels
at or beyond `dims` pass through unchanged via the trailing
concatenation. -/
def ropeFallback (dims : Nat) (traditional : Bool) (offset : Int)
    (scale : ℝ) (invFreq : Nat → ℝ) (forward : Bool)
    (x : Nat → Nat → Nat → ℝ) : Nat → Nat → Nat → ℝ :=
  fun b t d =>
    if traditional then
      if d < dims then
        let k := d / 2
        let c := Real.cos (ropeTheta offset scale invFreq t k)
        let s := Real.sin (ropeTheta offset scale invFreq t k)
        let x1 := x b t (2 * k)
        let x2 := x b t (2 * k + 1)
        if d % 2 = 0 then
          if forward then x1 * c - x2 * s else x2 * s + x1 * c
        else
          if forward then x1 * s + x2 * c else x2 * c - x1 * s
      else x b t d
    else
      let half := dims / 2
      if d < half then
        let c := Real.cos (ropeTheta offset scale invFreq t d)
        let s := Real.sin (ropeTheta offset scale invFreq t d)
        let x1 := x b t d
        let x2 := x b t (d + half)
        if forward then x1 * c - x2 * s else x2 * s + x1 * c
      else if d < dims then
        let k := d - half
        let c := Real.cos (ropeTheta offset scale invFreq t k)
        let s := Real.sin (ropeTheta offset scale invFreq t k)
        let x1 := x b t k
        let x2 := x b t d
        if forward then x1 * s + x2 * c else x2 * c - x1 * s
      else x b t d

/-- The row maximum used by the numerically-stable softmax. -/
def rowMax (L : Nat) (f : Nat → ℝ) : ℝ :=
  ((List.range L).map f).foldr max (f 0)

/-- `softmax(scores, axis=-1, precise=true)` on one row of length `L`:
max-subtracted exponentials normalized by their sum. -/
def softmaxRow (L : Nat) (f : Nat → ℝ) (j : Nat) : ℝ :=
  Real.exp (f j - rowMax L f) /
    ∑ m ∈ Finset.range L, Real.exp (f m - rowMax L f)

/-- The `scaled_dot_product_attention` fallback without mask, written
elementwise on rank-4 tensors indexed (batch, head, position, channel).
Q is scaled, then unflattened so that query head `h` pairs with key/value
head `h / n_repeats` (`unflatten(q, 1, {n_kv_heads, n_repeats})` followed
by `expand_dims` broadcasting of K/V over the repeat axis); scores are
`Q·Kᵗ` over `dk` channels, softmax is over the `Lk` key positions, the
output multiplies by V, and `flatten(out, 1, 2)` restores head
`h = kv * n_repeats + r`. -/
def sdpaFallback (nRep Lk dk : Nat) (scale : ℝ)
    (q k v : Nat → Nat → Nat → Nat → ℝ) : Nat → Nat → Nat → Nat → ℝ :=
  fun b h i e =>
    let kvh := h / nRep
    let r := h % nRep
    let scores := fun j =>
      ∑ d ∈ Finset.range dk, (scale * q b (kvh * nRep + r) i d) * k b kvh j d
    ∑ j ∈ Finset.range Lk, softmaxRow Lk scores j * v b kvh j e

/-- Repeating K or V `n_repeats` times along the head axis, the manual
construction of the specification's reference computation. -/
def repeatHeads (nRep : Nat) (k : Nat → Nat → Nat → Nat → ℝ) :
    Nat → Nat → Nat → Nat → ℝ :=
  fun b h j d => k b (h / nRep) j d

/-- Ungrouped attention (every query head has its own key/value head), the
specification's reference computation. -/
def sdpaUngrouped (Lk dk : Nat) (scale : ℝ)
    (q k v : Nat → Nat → Nat → Nat → ℝ) : Nat → Nat → Nat → Nat → ℝ :=
  fun b h i e =>
    let scores := fun j =>
      ∑ d ∈ Finset.range dk, (scale * q b h i d) * k b h j d
    ∑ j ∈ Finset.range Lk, softmaxRow Lk scores j * v b h j e

end

end Mlx

namespace Mlx

end Mlx

namespace Mlx

/-! ### Proofs about elem_to_loc -/

theorem elemToLocRev_append_single (s : Nat) (st : Int)
    (xs : List (Nat × Int)) : ∀ e : Nat,
    elemToLocRev e (xs ++ [(s, st)]) =
      elemToLocRev e xs + st * ((e / (xs.map Prod.fst).prod) % s : Nat) := by
  induction xs with
  | nil => intro e; simp [elemToLocRev, mul_comm]
  | cons p rest ih =>
    intro e
    obtain ⟨a, b⟩ := p
    simp only [List.cons_append, List.append_eq, elemToLocRev, ih (e / a),
      List.map_cons, List.prod_cons, Nat.div_div_eq_div_mul]
    ring

theorem elem_to_loc_cons (s : Nat) (st : Int) (sh : List Nat)
    (sts : List Int) (e : Nat) (hlen : sh.length = sts.length) :
    elem_to_loc e (s :: sh) (st :: sts) =
      st * ((e / sh.prod) % s : Nat) + elem_to_loc e sh sts := by
  have hfst : (((sh.zip sts).reverse).map Prod.fst).prod = sh.prod := by
    rw [List.map_reverse, List.prod_reverse, List.map_fst_zip _ _ (le_of_eq hlen)]
  simp only [elem_to_loc, List.zip_cons_cons, List.reverse_cons,
    elemToLocRev_append_single, hfst]
  ring

theorem elemToLocRev_add_mul_prod (q : Nat) (xs : List (Nat × Int)) :
    ∀ e : Nat,
    elemToLocRev (e + q * (xs.map Prod.fst).prod) xs = elemToLocRev e xs := by
  induction xs with
  | nil => intro e; simp [elemToLocRev]
  | cons p rest ih =>
    intro e
    obtain ⟨a, b⟩ := p
    rcases Nat.eq_zero_or_pos a with ha | ha
    · subst ha; simp [elemToLocRev]
    · have hq : q * (a * ((rest.map Prod.fst).prod)) =
          q * (rest.map Prod.fst).prod * a := by ring
      simp only [List.map_cons, List.prod_cons, elemToLocRev, hq,
        Nat.add_mul_mod_self_right, Nat.add_mul_div_right _ _ ha, ih (e / a)]

theorem elem_to_loc_mod (sh : List Nat) (sts : List Int) (e : Nat)
    (hlen : sh.length = sts.length) :
    elem_to_loc e sh sts = elem_to_loc (e % sh.prod) sh sts := by
  have hfst : (((sh.zip sts).reverse).map Prod.fst).prod = sh.prod := by
    rw [List.map_reverse, List.prod_reverse, List.map_fst_zip _ _ (le_of_eq hlen)]
  have key := elemToLocRev_add_mul_prod (e / sh.prod)
    ((sh.zip sts).reverse) (e % sh.prod)
  rw [hfst] at key
  unfold elem_to_loc
  rw [← key, Nat.mod_add_div']

theorem make_contiguous_strides_cons (s : Nat) (sh : List Nat) :
    make_contiguous_strides (s :: sh) =
      (sh.prod : Int) :: make_contiguous_strides sh := by
  simp only [make_contiguous_strides, List.length_cons, List.range_succ_eq_map,
    List.map_cons, List.map_map, List.drop_succ_cons, List.drop_zero]
  rfl

theorem length_make_contiguous_strides (sh : List Nat) :
    (make_contiguous_strides sh).length = sh.length := by
  simp [make_contiguous_strides]

theorem elem_to_loc_contiguous (sh : List Nat) : ∀ e : Nat, e < sh.prod →
    elem_to_loc e sh (make_contiguous_strides sh) = e := by
  induction sh with
  | nil =>
    intro e he
    simp only [List.prod_nil, Nat.lt_one_iff] at he
    subst he
    simp [elem_to_loc, elemToLocRev, make_contiguous_strides]
  | cons s sh ih =>
    intro e he
    rcases Nat.eq_zero_or_pos sh.prod with hp | hp
    · rw [List.prod_cons, hp, Nat.mul_zero] at he; omega
    rw [make_contiguous_strides_cons,
      elem_to_loc_cons _ _ _ _ _ (length_make_contiguous_strides sh).symm,
      elem_to_loc_mod _ _ _ (length_make_contiguous_strides sh).symm,
      ih (e % sh.prod) (Nat.mod_lt _ hp)]
    have hlt : e / sh.prod < s := by
      rw [Nat.div_lt_iff_lt_mul hp]
      rw [List.prod_cons] at he
      exact he
    rw [Nat.mod_eq_of_lt hlt]
    exact_mod_cast Nat.div_add_mod e sh.prod

theorem elem_to_loc_eq_sum (sh : List Nat) : ∀ (sts : List Int),
    sts.length = sh.length → ∀ e : Nat,
    elem_to_loc e sh sts =
      ∑ i ∈ Finset.range sh.length,
        sts.getD i 0 * (rowMajorCoord sh e i : Int) := by
  induction sh with
  | nil =>
    intro sts hlen e
    rw [List.length_eq_zero.mp hlen]
    simp [elem_to_loc, elemToLocRev]
  | cons s sh ih =>
    intro sts hlen e
    match sts, hlen with
    | st :: sts, hlen =>
      have hlen2 : sts.length = sh.length := by
        simpa using hlen
      rw [elem_to_loc_cons _ _ _ _ _ hlen2.symm, ih sts hlen2 e,
        List.length_cons, Finset.sum_range_succ']
      have h0 : rowMajorCoord (s :: sh) e 0 = (e / sh.prod) % s := rfl
      have hsucc : ∀ i : Nat,
          rowMajorCoord (s :: sh) e (i + 1) = rowMajorCoord sh e i :=
        fun i => rfl
      simp only [List.getD_cons_succ, List.getD_cons_zero, h0, hsucc]
      ring

/-- C10: for strides matching the shape in length and a linear index within
the array size, `elem_to_loc` returns the stride-weighted sum of the
row-major coordinates of the element; with the contiguous strides of the
shape it returns the element index itself, and so does the array overload on
a row-contiguous array. -/
theorem elem_to_loc_row_major (shape : List Nat) (strides : List Int)
    (elem : Nat) (hlen : strides.length = shape.length)
    (helem : elem < shape.prod) :
    elem_to_loc elem shape strides =
      (∑ i ∈ Finset.range shape.length,
        strides.getD i 0 * (rowMajorCoord shape elem i : Int))
    ∧ elem_to_loc elem shape (make_contiguous_strides shape) = elem
    ∧ (∀ a : ArrayView, a.row_contiguous = true →
        elem_to_loc_array elem a = elem) := by
  refine ⟨elem_to_loc_eq_sum shape strides hlen elem,
    elem_to_loc_contiguous shape elem helem, ?_⟩
  intro a ha
  simp [elem_to_loc_array, ha]

/-- Witness for C10 at shape [2, 3], strides [3, 1], element 4. -/
theorem elem_to_loc_row_major_witness :
    ([(3 : Int), 1].length = [2, 3].length ∧ 4 < [2, 3].prod)
    ∧ (elem_to_loc 4 [2, 3] [3, 1] =
        (∑ i ∈ Finset.range [2, 3].length,
          [(3 : Int), 1].getD i 0 * (rowMajorCoord [2, 3] 4 i : Int))
      ∧ elem_to_loc 4 [2, 3] (make_contiguous_strides [2, 3]) = 4
      ∧ (∀ a : ArrayView, a.row_contiguous = true →
          elem_to_loc_array 4 a = 4)) :=
  ⟨⟨by decide, by decide⟩,
    elem_to_loc_row_major [2, 3] [3, 1] 4 (by decide) (by decide)⟩

/-! ### Bit packing and chunking lemmas -/

theorem toBitsLE_length (n : Nat) : ∀ w : Nat, (toBitsLE n w).length = n := by
  induction n with
  | zero => intro w; rfl
  | succ n ih => intro w; simp [toBitsLE, ih]

theorem toBitsLE_lt_two (n : Nat) : ∀ w : Nat, ∀ b ∈ toBitsLE n w, b < 2 := by
  induction n with
  | zero => intro w b hb; simp [toBitsLE] at hb
  | succ n ih =>
    intro w b hb
    simp only [toBitsLE, List.mem_cons] at hb
    rcases hb with hb | hb
    · subst hb; exact Nat.mod_lt _ (by norm_num)
    · exact ih (w / 2) b hb

theorem fromBitsLE_toBitsLE (n : Nat) : ∀ w : Nat, w < 2 ^ n →
    fromBitsLE (toBitsLE n w) = w := by
  induction n with
  | zero =>
    intro w hw
    interval_cases w
    rfl
  | succ n ih =>
    intro w hw
    have hdiv : w / 2 < 2 ^ n := by
      rw [Nat.div_lt_iff_lt_mul (by norm_num)]
      calc w < 2 ^ (n + 1) := hw
        _ = 2 ^ n * 2 := by ring
    simp only [toBitsLE, fromBitsLE, ih (w / 2) hdiv]
    omega

theorem toBitsLE_fromBitsLE : ∀ (l : List Nat), (∀ b ∈ l, b < 2) →
    toBitsLE l.length (fromBitsLE l) = l := by
  intro l
  induction l with
  | nil => intro _; rfl
  | cons b rest ih =>
    intro hb
    have hb2 : b < 2 := hb b (List.mem_cons_self _ _)
    have hmod : (b + 2 * fromBitsLE rest) % 2 = b := by omega
    have hdiv : (b + 2 * fromBitsLE rest) / 2 = fromBitsLE rest := by omega
    simp only [List.length_cons, toBitsLE, fromBitsLE, hmod, hdiv,
      ih (fun x hx => hb x (List.mem_cons_of_mem _ hx))]

theorem chunkList_nil (n : Nat) : chunkList n ([] : List α) = [] := by
  rw [chunkList]

theorem chunkList_cons_eq (n : Nat) (hn : n ≠ 0) (l : List α) (hl : l ≠ []) :
    chunkList n l = l.take n :: chunkList n (l.drop n) := by
  match l with
  | [] => exact absurd rfl hl
  | x :: xs => rw [chunkList, if_neg hn]

theorem chunkList_flatten (n : Nat) (hn : n ≠ 0) (l : List α) :
    (chunkList n l).flatten = l := by
  have H : ∀ (N : Nat) (l : List α), l.length ≤ N →
      (chunkList n l).flatten = l := by
    intro N
    induction N with
    | zero =>
      intro l hl
      rw [List.length_eq_zero.mp (Nat.le_zero.mp hl), chunkList_nil]
      rfl
    | succ N ih =>
      intro l hl
      match l with
      | [] => rw [chunkList_nil]; rfl
      | x :: xs =>
        rw [chunkList_cons_eq n hn _ (by simp), List.flatten_cons,
          ih ((x :: xs).drop n)
            (by rw [List.length_drop]
                simp only [List.length_cons] at hl ⊢
                omega)]
        exact List.take_append_drop n (x :: xs)
  exact H l.length l le_rfl

theorem chunkList_length_eq (n : Nat) (hn : n ≠ 0) (l : List α)
    (hdvd : n ∣ l.length) : ∀ c ∈ chunkList n l, c.length = n := by
  have H : ∀ (N : Nat) (l : List α), l.length ≤ N → n ∣ l.length →
      ∀ c ∈ chunkList n l, c.length = n := by
    intro N
    induction N with
    | zero =>
      intro l hl _ c hc
      rw [List.length_eq_zero.mp (Nat.le_zero.mp hl)] at hc
      simp [chunkList] at hc
    | succ N ih =>
      intro l hl hdvd c hc
      match l with
      | [] => simp [chunkList] at hc
      | x :: xs =>
        rw [chunkList_cons_eq n hn _ (by simp)] at hc
        have hge : n ≤ (x :: xs).length := by
          rcases hdvd with ⟨k, hk⟩
          match k with
          | 0 => simp at hk
          | k + 1 => rw [hk]; exact Nat.le_mul_of_pos_right n (by omega)
        rcases List.mem_cons.mp hc with hc | hc
        · subst hc
          rw [List.length_take]
          exact Nat.min_eq_left hge
        · refine ih ((x :: xs).drop n)
            (by rw [List.length_drop]
                simp only [List.length_cons] at hl ⊢
                omega)
            ?_ c hc
          rw [List.length_drop]
          exact (Nat.dvd_sub' hdvd dvd_rfl)
  exact H l.length l le_rfl hdvd

theorem chunkList_mem_mem (n : Nat) (l : List α) :
    ∀ c ∈ chunkList n l, ∀ x ∈ c, x ∈ l := by
  have H : ∀ (N : Nat) (l : List α), l.length ≤ N →
      ∀ c ∈ chunkList n l, ∀ x ∈ c, x ∈ l := by
    intro N
    induction N with
    | zero =>
      intro l hl c hc
      rw [List.length_eq_zero.mp (Nat.le_zero.mp hl)] at hc ⊢
      simp [chunkList] at hc
    | succ N ih =>
      intro l hl c hc x hx
      match l with
      | [] => simp [chunkList] at hc
      | y :: ys =>
        by_cases hn : n = 0
        · subst hn; simp [chunkList] at hc
        rw [chunkList_cons_eq n hn _ (by simp)] at hc
        rcases List.mem_cons.mp hc with hc | hc
        · subst hc; exact List.mem_of_mem_take hx
        · exact List.mem_of_mem_drop
            (ih ((y :: ys).drop n)
              (by rw [List.length_drop]
                  simp only [List.length_cons] at hl ⊢
                  omega)
              c hc x hx)
  exact H l.length l le_rfl

theorem chunkList_flatten_map (n : Nat) (hn : n ≠ 0) (f : α → List β)
    (hf : ∀ x, (f x).length = n) : ∀ l : List α,
    chunkList n ((l.map f).flatten) = l.map f := by
  intro l
  induction l with
  | nil => simp [chunkList_nil]
  | cons x xs ih =>
    have hfx : f x ≠ [] := by
      intro h
      have := hf x
      rw [h] at this
      exact hn this.symm
    rw [List.map_cons, List.flatten_cons,
      chunkList_cons_eq n hn _ (by simp [hfx]),
      List.take_left' (hf x), List.drop_left' (hf x), ih]

theorem unpackBits_packBits (bits : Nat) (hb : bits ≠ 0) (codes : List Nat)
    (hc : ∀ c ∈ codes, c < 2 ^ bits) (hdvd : 32 ∣ bits * codes.length) :
    unpackBits bits (packBits bits codes) = codes := by
  have hlen : ∀ cs : List Nat,
      ((cs.map (toBitsLE bits)).flatten).length = bits * cs.length := by
    intro cs
    induction cs with
    | nil => simp
    | cons c cs ih =>
      simp [toBitsLE_length, ih, Nat.mul_succ]
      omega
  have hbits2 : ∀ b ∈ (codes.map (toBitsLE bits)).flatten, b < 2 := by
    intro b hbmem
    rcases List.mem_flatten.mp hbmem with ⟨s, hs, hbs⟩
    rcases List.mem_map.mp hs with ⟨c, _, hcs⟩
    subst hcs
    exact toBitsLE_lt_two bits c b hbs
  have hchunk32 : ∀ c ∈ chunkList 32 ((codes.map (toBitsLE bits)).flatten),
      c.length = 32 :=
    chunkList_length_eq 32 (by norm_num) _ (by rw [hlen]; exact hdvd)
  have hback : (packBits bits codes).map (toBitsLE 32) =
      chunkList 32 ((codes.map (toBitsLE bits)).flatten) := by
    rw [packBits, List.map_map]
    have : ∀ c ∈ chunkList 32 ((codes.map (toBitsLE bits)).flatten),
        (toBitsLE 32 ∘ fromBitsLE) c = id c := by
      intro c hcmem
      have h32 := hchunk32 c hcmem
      have hlt : ∀ b ∈ c, b < 2 := fun b hbc =>
        hbits2 b (chunkList_mem_mem 32 _ c hcmem b hbc)
      simp only [Function.comp_apply, id_eq, ← h32]
      exact toBitsLE_fromBitsLE c hlt
    rw [List.map_congr_left this, List.map_id]
  rw [unpackBits, hback, chunkList_flatten 32 (by norm_num),
    chunkList_flatten_map bits hb (toBitsLE bits) (toBitsLE_length bits),
    List.map_map]
  have : ∀ c ∈ codes, (fromBitsLE ∘ toBitsLE bits) c = id c := by
    intro c hcmem
    simp only [Function.comp_apply, id_eq]
    exact fromBitsLE_toBitsLE bits c (hc c hcmem)
  rw [List.map_congr_left this, List.map_id]

/-! ### Quantization analysis -/

theorem roundAway_sub_abs_le (q : ℚ) : |(roundAway q : ℚ) - q| ≤ 1 / 2 := by
  unfold roundAway
  split
  · have h1 : ((⌊-q + 1 / 2⌋ : ℤ) : ℚ) ≤ -q + 1 / 2 := Int.floor_le _
    have h2 : -q + 1 / 2 - 1 < ((⌊-q + 1 / 2⌋ : ℤ) : ℚ) := Int.sub_one_lt_floor _
    rw [abs_le]
    push_cast
    constructor <;> linarith
  · have h1 : ((⌊q + 1 / 2⌋ : ℤ) : ℚ) ≤ q + 1 / 2 := Int.floor_le _
    have h2 : q + 1 / 2 - 1 < ((⌊q + 1 / 2⌋ : ℤ) : ℚ) := Int.sub_one_lt_floor _
    rw [abs_le]
    constructor <;> linarith

theorem roundAway_nonneg (q : ℚ) (h : 0 ≤ q) : 0 ≤ roundAway q := by
  unfold roundAway
  rw [if_neg (not_lt.mpr h)]
  exact Int.floor_nonneg.mpr (by linarith)

theorem roundAway_nonpos (q : ℚ) (h : q ≤ 0) : roundAway q ≤ 0 := by
  unfold roundAway
  split
  · simp only [neg_nonpos]
    exact Int.floor_nonneg.mpr (by linarith)
  · rename_i hq
    have hq0 : q = 0 := le_antisymm h (not_lt.mp hq)
    subst hq0
    norm_num

theorem roundAway_zero : roundAway 0 = 0 := by
  unfold roundAway
  norm_num

theorem roundAway_eq_zero_abs_lt (q : ℚ) (h : roundAway q = 0) :
    |q| < 1 / 2 := by
  unfold roundAway at h
  split at h
  · rename_i hq
    rw [neg_eq_zero, Int.floor_eq_zero_iff] at h
    obtain ⟨h1, h2⟩ := h
    rw [abs_of_neg hq]
    linarith
  · rename_i hq
    rw [Int.floor_eq_zero_iff] at h
    obtain ⟨h1, h2⟩ := h
    rw [abs_of_nonneg (not_lt.mp hq)]
    linarith

theorem roundAway_abs_le (q : ℚ) : |(roundAway q : ℚ)| ≤ |q| + 1 / 2 := by
  have h := roundAway_sub_abs_le q
  calc |(roundAway q : ℚ)| = |((roundAway q : ℚ) - q) + q| := by ring_nf
    _ ≤ |(roundAway q : ℚ) - q| + |q| := abs_add _ _
    _ ≤ |q| + 1 / 2 := by linarith

theorem le_wMax : ∀ (g : List ℚ) (w : ℚ), w ∈ g → w ≤ wMax g := by
  intro g
  induction g with
  | nil => intro w hw; simp at hw
  | cons x xs ih =>
    intro w hw
    cases xs with
    | nil =>
      rw [List.mem_singleton] at hw
      subst hw
      exact le_of_eq rfl
    | cons y ys =>
      rcases List.mem_cons.mp hw with h | h
      · subst h
        simp only [wMax]
        exact le_max_left _ _
      · simp only [wMax]
        exact le_trans (ih w h) (le_max_right _ _)

theorem wMin_le : ∀ (g : List ℚ) (w : ℚ), w ∈ g → wMin g ≤ w := by
  intro g
  induction g with
  | nil => intro w hw; simp at hw
  | cons x xs ih =>
    intro w hw
    cases xs with
    | nil =>
      rw [List.mem_singleton] at hw
      subst hw
      exact le_of_eq rfl
    | cons y ys =>
      rcases List.mem_cons.mp hw with h | h
      · subst h
        simp only [wMin]
        exact min_le_left _ _
      · simp only [wMin]
        exact le_trans (min_le_right _ _) (ih w h)

theorem clip_code_abs_le (nb : ℤ) (hnb : 1 ≤ nb) (t : ℚ)
    (h1 : -1 ≤ t) (h2 : t ≤ (nb : ℚ) + 1) :
    |((clipZ (roundAway t) 0 nb : ℤ) : ℚ) - t| ≤ 1 := by
  have hr := roundAway_sub_abs_le t
  rw [abs_le] at hr
  by_cases ht : t < 0
  · have hra : roundAway t ≤ 0 := roundAway_nonpos t ht.le
    have hclip : clipZ (roundAway t) 0 nb = 0 := by
      unfold clipZ
      rw [max_eq_right hra, min_eq_left (by omega)]
    rw [hclip]
    rw [abs_le]
    push_cast
    constructor <;> linarith
  · push_neg at ht
    by_cases ht2 : (nb : ℚ) < t
    · have hra : nb ≤ roundAway t := by
        have hz : (nb : ℚ) - 1 < (roundAway t : ℚ) := by linarith
        have hz2 : nb - 1 < roundAway t := by exact_mod_cast hz
        omega
      have hclip : clipZ (roundAway t) 0 nb = nb := by
        unfold clipZ
        rw [max_eq_left (by omega), min_eq_right hra]
      rw [hclip, abs_le]
      constructor <;> linarith
    · push_neg at ht2
      have hra0 : 0 ≤ roundAway t := roundAway_nonneg t ht
      have hranb : roundAway t ≤ nb := by
        have hz : (roundAway t : ℚ) < (nb : ℚ) + 1 := by linarith
        have hz2 : roundAway t < nb + 1 := by exact_mod_cast hz
        omega
      have hclip : clipZ (roundAway t) 0 nb = roundAway t := by
        unfold clipZ
        rw [max_eq_left hra0, min_eq_left hranb]
      rw [hclip, abs_le]
      constructor <;> linarith

theorem quant_t_upper (s0 a Q diff nbq u : ℚ) (hs0 : 0 < s0) (ha : 0 < a)
    (hQ0 : 0 ≤ Q) (hQ : Q * s0 ≤ a + s0 / 2) (hdiff0 : 0 ≤ diff)
    (hdiffs : diff ≤ nbq * s0) (hdiffa : diff ≤ 2 * a)
    (hu : u ≤ diff) : u * Q / a ≤ nbq + 1 := by
  rw [div_le_iff₀ ha]
  have key : u * Q * s0 ≤ (nbq + 1) * a * s0 := by
    calc u * Q * s0 = u * (Q * s0) := by ring
      _ ≤ diff * (Q * s0) :=
          mul_le_mul_of_nonneg_right hu (mul_nonneg hQ0 hs0.le)
      _ ≤ diff * (a + s0 / 2) := mul_le_mul_of_nonneg_left hQ hdiff0
      _ = diff * a + diff * (s0 / 2) := by ring
      _ ≤ (nbq * s0) * a + (2 * a) * (s0 / 2) := by
          have hx1 : diff * a ≤ (nbq * s0) * a :=
            mul_le_mul_of_nonneg_right hdiffs ha.le
          have hx2 : diff * (s0 / 2) ≤ (2 * a) * (s0 / 2) :=
            mul_le_mul_of_nonneg_right hdiffa (by positivity)
          linarith
      _ = (nbq + 1) * a * s0 := by ring
  exact le_of_mul_le_mul_right key hs0

theorem error_from_t_bounds (scale bias w : ℚ) (bits : Nat) (hb : 2 ≤ bits)
    (hscale : scale ≠ 0)
    (h1 : -1 ≤ (w - bias) / scale)
    (h2 : (w - bias) / scale ≤ ((2 ^ bits - 1 : ℤ) : ℚ) + 1) :
    |((clipZ (roundAway ((w - bias) / scale)) 0 (2 ^ bits - 1) : ℤ) : ℚ) *
        scale + bias - w| ≤ |scale| := by
  have hnbz : (1 : ℤ) ≤ 2 ^ bits - 1 := by
    have h4 : (4 : ℤ) ≤ 2 ^ bits := by
      calc (4 : ℤ) = 2 ^ 2 := by norm_num
        _ ≤ 2 ^ bits := pow_le_pow_right₀ (by norm_num) hb
    omega
  have hclip := clip_code_abs_le (2 ^ bits - 1) hnbz ((w - bias) / scale) h1 h2
  have hst : scale * ((w - bias) / scale) = w - bias := by
    field_simp
  have herr :
      ((clipZ (roundAway ((w - bias) / scale)) 0 (2 ^ bits - 1) : ℤ) : ℚ) *
          scale + bias - w =
        scale * (((clipZ (roundAway ((w - bias) / scale)) 0
          (2 ^ bits - 1) : ℤ) : ℚ) - (w - bias) / scale) := by
    linear_combination hst
  rw [herr, abs_mul]
  calc |scale| *
      |((clipZ (roundAway ((w - bias) / scale)) 0 (2 ^ bits - 1) : ℤ) : ℚ) -
        (w - bias) / scale| ≤ |scale| * 1 :=
        mul_le_mul_of_nonneg_left hclip (abs_nonneg _)
    _ = |scale| := mul_one _

/-- Per-element dequantization error bound: for each element of a group the
code produced by the `affine_quantize` fallback reconstructs the element up
to one scale. -/
theorem quantize_dequant_error (g : List ℚ) (bits : Nat) (hb : 2 ≤ bits)
    (w : ℚ) (hw : w ∈ g) :
    |((quantizeCode g bits w : ℤ) : ℚ) * groupScale g bits +
        groupBias g bits - w| ≤ |groupScale g bits| := by
  have hmw : wMin g ≤ w := wMin_le g w hw
  have hwM : w ≤ wMax g := le_wMax g w hw
  have hmM : wMin g ≤ wMax g := le_trans hmw hwM
  have hnb3 : (3 : ℚ) ≤ nBins bits := by
    unfold nBins
    have h4 : (4 : ℚ) ≤ 2 ^ bits := by
      calc (4 : ℚ) = 2 ^ 2 := by norm_num
        _ ≤ 2 ^ bits := pow_le_pow_right₀ (by norm_num) hb
    linarith
  have hnb0 : (0 : ℚ) < nBins bits := by linarith
  have heps : (0 : ℚ) < quantEps := by unfold quantEps; norm_num
  have hs0 : 0 < max ((wMax g - wMin g) / nBins bits) quantEps :=
    lt_of_lt_of_le heps (le_max_right _ _)
  have hdiffs : wMax g - wMin g ≤
      nBins bits * max ((wMax g - wMin g) / nBins bits) quantEps := by
    have h := le_max_left ((wMax g - wMin g) / nBins bits) quantEps
    rw [div_le_iff₀ hnb0] at h
    linarith
  have hcast : ((2 ^ bits - 1 : ℤ) : ℚ) = nBins bits := by
    unfold nBins; push_cast; ring
  have habs : |scaleInit g bits| =
      max ((wMax g - wMin g) / nBins bits) quantEps := by
    unfold scaleInit
    split
    · exact abs_of_pos hs0
    · rw [abs_neg]; exact abs_of_pos hs0
  have hsi_ne : scaleInit g bits ≠ 0 := by
    intro h
    rw [h, abs_zero] at habs
    exact absurd habs (ne_of_lt hs0)
  have hedge_abs : |groupEdge g| = max |wMin g| |wMax g| := by
    unfold groupEdge
    split
    · rename_i hmask
      unfold groupMask at hmask
      rw [max_eq_left hmask.le]
    · rename_i hmask
      unfold groupMask at hmask
      push_neg at hmask
      rw [max_eq_right hmask]
  have hw_abs : |w| ≤ max |wMin g| |wMax g| := by
    rw [abs_le]
    constructor
    · have h1 : -(|wMin g|) ≤ wMin g := neg_abs_le _
      have h2 : |wMin g| ≤ max |wMin g| |wMax g| := le_max_left _ _
      linarith
    · have h1 : wMax g ≤ |wMax g| := le_abs_self _
      have h2 : |wMax g| ≤ max |wMin g| |wMax g| := le_max_right _ _
      linarith
  by_cases hq : groupQ0 g bits = 0
  · -- q0 = 0: scale stays the initial scale and the bias is 0
    have hscale : groupScale g bits = scaleInit g bits := by
      unfold groupScale; rw [if_pos hq]
    have hbias : groupBias g bits = 0 := by
      unfold groupBias; rw [if_pos hq]
    have hscale_ne : groupScale g bits ≠ 0 := by rw [hscale]; exact hsi_ne
    have hedge_small :
        |groupEdge g| < max ((wMax g - wMin g) / nBins bits) quantEps / 2 := by
      have h := roundAway_eq_zero_abs_lt (groupEdge g / scaleInit g bits) hq
      rw [abs_div, habs, div_lt_iff₀ hs0] at h
      linarith
    have hw_small :
        |w| < max ((wMax g - wMin g) / nBins bits) quantEps / 2 := by
      calc |w| ≤ max |wMin g| |wMax g| := hw_abs
        _ = |groupEdge g| := hedge_abs.symm
        _ < _ := hedge_small
    have ht_abs : |(w - groupBias g bits) / groupScale g bits| < 1 / 2 := by
      rw [hbias, hscale, sub_zero, abs_div, habs, div_lt_iff₀ hs0]
      linarith
    have ht := abs_lt.mp ht_abs
    unfold quantizeCode
    apply error_from_t_bounds (groupScale g bits) (groupBias g bits) w bits hb
      hscale_ne
    · linarith [ht.1]
    · rw [hcast]; linarith [ht.2]
  · -- q0 ≠ 0: scale is refined to edge/q0 and the bias is the edge
    have hscale : groupScale g bits = groupEdge g / ((groupQ0 g bits : ℤ) : ℚ) := by
      unfold groupScale; rw [if_neg hq]
    have hbias : groupBias g bits = groupEdge g := by
      unfold groupBias; rw [if_neg hq]
    have hedge_ne : groupEdge g ≠ 0 := by
      intro h
      apply hq
      unfold groupQ0
      rw [h, zero_div, roundAway_zero]
    have hq0_ne : ((groupQ0 g bits : ℤ) : ℚ) ≠ 0 := Int.cast_ne_zero.mpr hq
    have hscale_ne : groupScale g bits ≠ 0 := by
      rw [hscale]; exact div_ne_zero hedge_ne hq0_ne
    have hq0_bound : |((groupQ0 g bits : ℤ) : ℚ)| ≤
        |groupEdge g| / max ((wMax g - wMin g) / nBins bits) quantEps
          + 1 / 2 := by
      have h := roundAway_abs_le (groupEdge g / scaleInit g bits)
      rw [abs_div, habs] at h
      exact h
    -- In every parameter case the normalized value t lies in [0, nBins + 1]
    have hts : 0 ≤ (w - groupBias g bits) / groupScale g bits ∧
        (w - groupBias g bits) / groupScale g bits ≤ nBins bits + 1 := by
      by_cases hmask : groupMask g
      · -- anchor is the minimum, which must be negative
        have hedge : groupEdge g = wMin g := by
          unfold groupEdge; rw [if_pos hmask]
        have habs_lt : |wMax g| < |wMin g| := hmask
        have hmneg : wMin g < 0 := by
          by_contra hc
          push_neg at hc
          have h1 : |wMin g| = wMin g := abs_of_nonneg hc
          have h2 : |wMax g| = wMax g := abs_of_nonneg (le_trans hc hmM)
          rw [h1, h2] at habs_lt
          linarith
        have hsi : scaleInit g bits =
            max ((wMax g - wMin g) / nBins bits) quantEps := by
          unfold scaleInit; rw [if_pos hmask]
        have hq0_neg : groupQ0 g bits ≤ -1 := by
          have hnp : groupQ0 g bits ≤ 0 := by
            unfold groupQ0
            apply roundAway_nonpos
            rw [hedge, hsi]
            exact div_nonpos_of_nonpos_of_nonneg hmneg.le hs0.le
          omega
        have hq0_cast : ((groupQ0 g bits : ℤ) : ℚ) ≤ -1 := by
          exact_mod_cast hq0_neg
        have hQ1 : (1 : ℚ) ≤ -((groupQ0 g bits : ℤ) : ℚ) := by linarith
        have ha : (0 : ℚ) < -(wMin g) := by linarith
        have hQs0 : -((groupQ0 g bits : ℤ) : ℚ) *
            max ((wMax g - wMin g) / nBins bits) quantEps ≤
            -(wMin g) + max ((wMax g - wMin g) / nBins bits) quantEps / 2 := by
          have h1 : |((groupQ0 g bits : ℤ) : ℚ)| = -((groupQ0 g bits : ℤ) : ℚ) :=
            abs_of_neg (by linarith)
          have h2 : |groupEdge g| = -(wMin g) := by
            rw [hedge, abs_of_neg hmneg]
          rw [h1, h2] at hq0_bound
          have h3 := mul_le_mul_of_nonneg_right hq0_bound hs0.le
          rw [add_mul, div_mul_cancel₀ _ (ne_of_gt hs0)] at h3
          linarith
        have hdiffa : wMax g - wMin g ≤ 2 * -(wMin g) := by
          have h1 : wMax g ≤ |wMax g| := le_abs_self _
          have h2 : |wMin g| = -(wMin g) := abs_of_neg hmneg
          linarith [habs_lt.le]
        have hteq : (w - groupBias g bits) / groupScale g bits =
            (w - wMin g) * -((groupQ0 g bits : ℤ) : ℚ) / -(wMin g) := by
          rw [hbias, hscale, hedge]
          field_simp
        constructor
        · rw [hteq]
          exact div_nonneg (mul_nonneg (by linarith) (by linarith)) ha.le
        · rw [hteq]
          exact quant_t_upper _ _ _ _ _ _ hs0 ha (by linarith) hQs0
            (by linarith) hdiffs hdiffa (by linarith)
      · -- anchor is the maximum
        have hedge : groupEdge g = wMax g := by
          unfold groupEdge; rw [if_neg hmask]
        have habs_le : |wMin g| ≤ |wMax g| := by
          unfold groupMask at hmask
          exact not_lt.mp hmask
        have hMne : wMax g ≠ 0 := hedge ▸ hedge_ne
        have hsi : scaleInit g bits =
            -max ((wMax g - wMin g) / nBins bits) quantEps := by
          unfold scaleInit; rw [if_neg hmask]
        rcases lt_or_gt_of_ne hMne with hMneg | hMpos
        · -- all group elements are equal to the (negative) maximum
          have hmm : wMin g = wMax g := by
            have h1 : |wMin g| = -(wMin g) := abs_of_neg (by linarith)
            have h2 : |wMax g| = -(wMax g) := abs_of_neg hMneg
            rw [h1, h2] at habs_le
            linarith
          have hww : w = wMax g := by rw [hmm] at hmw; linarith
          have ht0 : (w - groupBias g bits) / groupScale g bits = 0 := by
            rw [hbias, hedge, hww, sub_self, zero_div]
          rw [ht0]
          constructor
          · exact le_refl 0
          · linarith
        · -- the maximum is positive
          have hq0_neg : groupQ0 g bits ≤ -1 := by
            have hnp : groupQ0 g bits ≤ 0 := by
              unfold groupQ0
              apply roundAway_nonpos
              rw [hedge, hsi]
              apply div_nonpos_of_nonneg_of_nonpos hMpos.le
              linarith
            omega
          have hq0_cast : ((groupQ0 g bits : ℤ) : ℚ) ≤ -1 := by
            exact_mod_cast hq0_neg
          have hQ1 : (1 : ℚ) ≤ -((groupQ0 g bits : ℤ) : ℚ) := by linarith
          have hQs0 : -((groupQ0 g bits : ℤ) : ℚ) *
              max ((wMax g - wMin g) / nBins bits) quantEps ≤
              wMax g + max ((wMax g - wMin g) / nBins bits) quantEps / 2 := by
            have h1 : |((groupQ0 g bits : ℤ) : ℚ)| =
                -((groupQ0 g bits : ℤ) : ℚ) := abs_of_neg (by linarith)
            have h2 : |groupEdge g| = wMax g := by
              rw [hedge, abs_of_pos hMpos]
            rw [h1, h2] at hq0_bound
            have h3 := mul_le_mul_of_nonneg_right hq0_bound hs0.le
            rw [add_mul, div_mul_cancel₀ _ (ne_of_gt hs0)] at h3
            linarith
          have hdiffa : wMax g - wMin g ≤ 2 * wMax g := by
            have h1 : -(wMin g) ≤ |wMin g| := neg_le_abs _
            have h2 : |wMax g| = wMax g := abs_of_pos hMpos
            linarith [habs_le]
          have hteq : (w - groupBias g bits) / groupScale g bits =
              (wMax g - w) * -((groupQ0 g bits : ℤ) : ℚ) / wMax g := by
            rw [hbias, hscale, hedge]
            field_simp
            ring
          constructor
          · rw [hteq]
            exact div_nonneg (mul_nonneg (by linarith) (by linarith)) hMpos.le
          · rw [hteq]
            exact quant_t_upper _ _ _ _ _ _ hs0 hMpos (by linarith) hQs0
              (by linarith) hdiffs hdiffa (by linarith)
    unfold quantizeCode
    apply error_from_t_bounds (groupScale g bits) (groupBias g bits) w bits hb
      hscale_ne
    · linarith [hts.1]
    · rw [hcast]; linarith [hts.2]

theorem quantizeCode_nonneg (g : List ℚ) (bits : Nat) (w : ℚ) :
    0 ≤ quantizeCode g bits w := by
  unfold quantizeCode clipZ
  have hpow : (0 : ℤ) < 2 ^ bits := pow_pos (by norm_num) bits
  exact le_min (le_max_right _ _) (by omega)

theorem quantizeCode_toNat_lt (g : List ℚ) (bits : Nat) (w : ℚ) :
    (quantizeCode g bits w).toNat < 2 ^ bits := by
  have hle : quantizeCode g bits w ≤ 2 ^ bits - 1 := min_le_right _ _
  have hb1 : 1 ≤ 2 ^ bits := Nat.one_le_two_pow
  have hcast : ((2 ^ bits - 1 : Nat) : ℤ) = (2 : ℤ) ^ bits - 1 := by
    push_cast [hb1]
    ring
  have h1 : (quantizeCode g bits w).toNat ≤ ((2 : ℤ) ^ bits - 1).toNat :=
    Int.toNat_le_toNat hle
  rw [← hcast, Int.toNat_natCast] at h1
  omega

theorem quantizeCode_toNat_cast (g : List ℚ) (bits : Nat) (w : ℚ) :
    (((quantizeCode g bits w).toNat : Nat) : ℚ) =
      ((quantizeCode g bits w : ℤ) : ℚ) := by
  have h := Int.toNat_of_nonneg (quantizeCode_nonneg g bits w)
  exact_mod_cast congrArg (fun z : ℤ => (z : ℚ)) h

/-- The dequantize fallback applied to the quantize fallback of one group
reduces to the per-element reconstruction `code * scale + bias`. -/
theorem affine_group_roundtrip (g : List ℚ) (bits : Nat) (hb : 2 ≤ bits)
    (hdvd : 32 ∣ bits * g.length) :
    affine_dequantize_group (pack_and_quantize g bits) (groupScale g bits)
      (groupBias g bits) bits =
    g.map (fun w => (((quantizeCode g bits w).toNat : Nat) : ℚ) *
      groupScale g bits + groupBias g bits) := by
  have hcodes : ∀ c ∈ groupCodes g bits, c < 2 ^ bits := by
    intro c hc
    unfold groupCodes at hc
    rcases List.mem_map.mp hc with ⟨w, _, hwc⟩
    exact hwc ▸ quantizeCode_toNat_lt g bits w
  have hlen : (groupCodes g bits).length = g.length := by
    unfold groupCodes; rw [List.length_map]
  unfold affine_dequantize_group pack_and_quantize
  rw [unpackBits_packBits bits (by omega) (groupCodes g bits) hcodes
    (by rw [hlen]; exact hdvd)]
  unfold groupCodes
  rw [List.map_map]
  rfl

/-- C1: for a weight tensor (modelled flattened, with last dimension a
multiple of `group_size` so that the groups partition it), `group_size` in
{32, 64, 128} and `bits` in {2, 3, 4, 5, 6, 8}, dequantizing the triple
produced by `affine_quantize` reconstructs every element to within one
quantization step (the group's scale) in absolute value. -/
theorem affine_quantize_dequantize_roundtrip (w : List ℚ)
    (group_size bits : Nat)
    (hgs : group_size = 32 ∨ group_size = 64 ∨ group_size = 128)
    (hbits : bits = 2 ∨ bits = 3 ∨ bits = 4 ∨ bits = 5 ∨ bits = 6 ∨ bits = 8)
    (hdvd : group_size ∣ w.length) :
    (chunkList group_size w).flatten = w ∧
    ∀ g ∈ chunkList group_size w,
      (affine_dequantize_group (affine_quantize_group g bits).1
        (affine_quantize_group g bits).2.1
        (affine_quantize_group g bits).2.2 bits).length = g.length ∧
      ∀ j (h1 : j < (affine_dequantize_group (affine_quantize_group g bits).1
          (affine_quantize_group g bits).2.1
          (affine_quantize_group g bits).2.2 bits).length)
        (h2 : j < g.length),
        |(affine_dequantize_group (affine_quantize_group g bits).1
            (affine_quantize_group g bits).2.1
            (affine_quantize_group g bits).2.2 bits)[j] - g[j]| ≤
          |groupScale g bits| := by
  have hgs0 : group_size ≠ 0 := by rcases hgs with h | h | h <;> omega
  have hb2 : 2 ≤ bits := by
    rcases hbits with h | h | h | h | h | h <;> omega
  refine ⟨chunkList_flatten group_size hgs0 w, ?_⟩
  intro g hg
  have hglen : g.length = group_size :=
    chunkList_length_eq group_size hgs0 w hdvd g hg
  have hdvd32 : 32 ∣ bits * g.length := by
    rw [hglen]
    have h32 : (32 : Nat) ∣ group_size := by
      rcases hgs with h | h | h <;> subst h <;> decide
    exact dvd_trans h32 (dvd_mul_left group_size bits)
  have hrt := affine_group_roundtrip g bits hb2 hdvd32
  have hfst : (affine_quantize_group g bits).1 = pack_and_quantize g bits := rfl
  have hsnd : (affine_quantize_group g bits).2.1 = groupScale g bits := rfl
  have hthd : (affine_quantize_group g bits).2.2 = groupBias g bits := rfl
  rw [hfst, hsnd, hthd, hrt]
  constructor
  · rw [List.length_map]
  · intro j h1 h2
    rw [List.getElem_map]
    rw [quantizeCode_toNat_cast]
    exact quantize_dequant_error g bits hb2 g[j] (List.getElem_mem h2)

/-- Witness for C1 at the 32-element zero tensor, group size 32, 2 bits. -/
theorem affine_quantize_dequantize_roundtrip_witness :
    ((32 : Nat) = 32 ∨ (32 : Nat) = 64 ∨ (32 : Nat) = 128)
    ∧ ((2 : Nat) = 2 ∨ (2 : Nat) = 3 ∨ (2 : Nat) = 4 ∨ (2 : Nat) = 5 ∨
        (2 : Nat) = 6 ∨ (2 : Nat) = 8)
    ∧ (32 ∣ (List.replicate 32 (0 : ℚ)).length)
    ∧ ((chunkList 32 (List.replicate 32 (0 : ℚ))).flatten =
        List.replicate 32 (0 : ℚ) ∧
      ∀ g ∈ chunkList 32 (List.replicate 32 (0 : ℚ)),
        (affine_dequantize_group (affine_quantize_group g 2).1
          (affine_quantize_group g 2).2.1
          (affine_quantize_group g 2).2.2 2).length = g.length ∧
        ∀ j (h1 : j < (affine_dequantize_group (affine_quantize_group g 2).1
            (affine_quantize_group g 2).2.1
            (affine_quantize_group g 2).2.2 2).length)
          (h2 : j < g.length),
          |(affine_dequantize_group (affine_quantize_group g 2).1
              (affine_quantize_group g 2).2.1
              (affine_quantize_group g 2).2.2 2)[j] - g[j]| ≤
            |groupScale g 2|) :=
  ⟨by decide, by decide, by decide,
    affine_quantize_dequantize_roundtrip (List.replicate 32 (0 : ℚ)) 32 2
      (by decide) (by decide) (by decide)⟩

/-- C2 counterexample: on the group [-4, 1] with 2 bits the anchor is the
minimum -4 (negative), yet the code's initial scale is +5/3 (positive), so
the initial scale is not "sign-flipped to match the anchor's sign"; the
final refined scale of the code (+2) and of the claim's pipeline (-2)
consequently differ as well. -/
theorem quantize_scale_sign_counterexample :
    groupEdge [(-4 : ℚ), 1] = specAnchor [(-4 : ℚ), 1]
    ∧ specAnchor [(-4 : ℚ), 1] < 0
    ∧ 0 < scaleInit [(-4 : ℚ), 1] 2
    ∧ scaleInit [(-4 : ℚ), 1] 2 ≠ specScaleInitClaim [(-4 : ℚ), 1] 2
    ∧ groupScale [(-4 : ℚ), 1] 2 = 2
    ∧ specScaleClaim [(-4 : ℚ), 1] 2 = -2 := by
  have hM : wMax [(-4 : ℚ), 1] = 1 := by decide
  have hm : wMin [(-4 : ℚ), 1] = -4 := by decide
  have hmask : groupMask [(-4 : ℚ), 1] := by
    unfold groupMask
    rw [hM, hm]
    norm_num
  have hmask2 : |wMax [(-4 : ℚ), 1]| < |wMin [(-4 : ℚ), 1]| := hmask
  have hsmax : max ((wMax [(-4 : ℚ), 1] - wMin [(-4 : ℚ), 1]) / nBins 2)
      quantEps = 5 / 3 := by
    rw [hM, hm]
    unfold nBins quantEps
    rw [max_eq_left (by norm_num)]
    norm_num
  have hscaleInit : scaleInit [(-4 : ℚ), 1] 2 = 5 / 3 := by
    unfold scaleInit
    rw [if_pos hmask]
    exact hsmax
  have hedge : groupEdge [(-4 : ℚ), 1] = -4 := by
    unfold groupEdge
    rw [if_pos hmask, hm]
  have hanchor : specAnchor [(-4 : ℚ), 1] = -4 := by
    unfold specAnchor
    rw [if_pos hmask2, hm]
  have hfloor : ⌊(29 / 10 : ℚ)⌋ = 2 := by
    rw [Int.floor_eq_iff]
    constructor <;> norm_num
  have hq0 : groupQ0 [(-4 : ℚ), 1] 2 = -2 := by
    unfold groupQ0 roundAway
    rw [hedge, hscaleInit]
    rw [show (-4 : ℚ) / (5 / 3) = -(12 / 5) by norm_num,
      if_pos (by norm_num : (-(12 / 5) : ℚ) < 0),
      show -(-(12 / 5 : ℚ)) + 1 / 2 = 29 / 10 by norm_num, hfloor]
  have hq0ne : groupQ0 [(-4 : ℚ), 1] 2 ≠ 0 := by rw [hq0]; decide
  have hscale : groupScale [(-4 : ℚ), 1] 2 = 2 := by
    unfold groupScale
    rw [if_neg hq0ne, hedge, hq0]
    norm_num
  have hspecInit : specScaleInitClaim [(-4 : ℚ), 1] 2 = -(5 / 3) := by
    unfold specScaleInitClaim
    rw [if_pos (show specAnchor [(-4 : ℚ), 1] < 0 by rw [hanchor]; norm_num),
      hsmax]
  have hspecq0 : specQ0Claim [(-4 : ℚ), 1] 2 = 2 := by
    unfold specQ0Claim roundAway
    rw [hanchor, hspecInit]
    rw [show (-4 : ℚ) / -(5 / 3) = 12 / 5 by norm_num,
      if_neg (by norm_num : ¬((12 / 5 : ℚ) < 0)),
      show (12 / 5 : ℚ) + 1 / 2 = 29 / 10 by norm_num, hfloor]
  have hspecne : specQ0Claim [(-4 : ℚ), 1] 2 ≠ 0 := by rw [hspecq0]; decide
  have hspecscale : specScaleClaim [(-4 : ℚ), 1] 2 = -2 := by
    unfold specScaleClaim
    rw [if_neg hspecne, hanchor, hspecq0]
    norm_num
  exact ⟨by rw [hedge, hanchor], by rw [hanchor]; norm_num,
    by rw [hscaleInit]; norm_num,
    by rw [hscaleInit, hspecInit]; norm_num, hscale, hspecscale⟩

/-- C2 (amended): per group, `affine_quantize` picks the anchor as
whichever of max/min has strictly larger magnitude (ties to the max), gives
the initial scale magnitude `max((max-min)/(2^bits-1), 1e-7)` with sign
positive exactly when the anchor is the minimum and negative when it is the
maximum (the opposite of the anchor's own sign in the generic case); then
if `q0 = round(anchor/scale)` is nonzero the scale is refined to
`anchor/q0` and the bias is the anchor, and otherwise the bias is 0 and the
initial scale is kept. -/
theorem quantize_scale_bias_characterization (g : List ℚ) (bits : Nat) :
    groupEdge g = specAnchor g
    ∧ |scaleInit g bits| = max ((wMax g - wMin g) / nBins bits) quantEps
    ∧ (0 < scaleInit g bits ↔ |wMax g| < |wMin g|)
    ∧ groupQ0 g bits = roundAway (specAnchor g / scaleInit g bits)
    ∧ (groupQ0 g bits ≠ 0 →
        groupScale g bits = specAnchor g / ((groupQ0 g bits : ℤ) : ℚ) ∧
        groupBias g bits = specAnchor g)
    ∧ (groupQ0 g bits = 0 →
        groupScale g bits = scaleInit g bits ∧ groupBias g bits = 0) := by
  have heps : (0 : ℚ) < quantEps := by unfold quantEps; norm_num
  have hs0 : 0 < max ((wMax g - wMin g) / nBins bits) quantEps :=
    lt_of_lt_of_le heps (le_max_right _ _)
  have hanchor : groupEdge g = specAnchor g := by
    unfold groupEdge specAnchor
    split_ifs with h1 h2 h2
    · rfl
    · exact absurd h1 h2
    · exact absurd h2 h1
    · rfl
  refine ⟨hanchor, ?_, ?_, ?_, ?_, ?_⟩
  · unfold scaleInit
    split_ifs
    · exact abs_of_pos hs0
    · rw [abs_neg]; exact abs_of_pos hs0
  · unfold scaleInit
    split_ifs with h
    · exact iff_of_true hs0 h
    · exact iff_of_false (by linarith) h
  · unfold groupQ0
    rw [hanchor]
  · intro h
    unfold groupScale groupBias
    rw [if_neg h, if_neg h, hanchor]
    exact ⟨rfl, rfl⟩
  · intro h
    unfold groupScale groupBias
    rw [if_pos h, if_pos h]
    exact ⟨rfl, rfl⟩

/-- Instantiation of the C2 characterization at the group [-4, 1], 2
bits. -/
theorem quantize_scale_bias_characterization_witness :
    groupEdge [(-4 : ℚ), 1] = specAnchor [(-4 : ℚ), 1]
    ∧ |scaleInit [(-4 : ℚ), 1] 2| =
        max ((wMax [(-4 : ℚ), 1] - wMin [(-4 : ℚ), 1]) / nBins 2) quantEps
    ∧ (0 < scaleInit [(-4 : ℚ), 1] 2 ↔
        |wMax [(-4 : ℚ), 1]| < |wMin [(-4 : ℚ), 1]|)
    ∧ groupQ0 [(-4 : ℚ), 1] 2 =
        roundAway (specAnchor [(-4 : ℚ), 1] / scaleInit [(-4 : ℚ), 1] 2)
    ∧ (groupQ0 [(-4 : ℚ), 1] 2 ≠ 0 →
        groupScale [(-4 : ℚ), 1] 2 =
          specAnchor [(-4 : ℚ), 1] / ((groupQ0 [(-4 : ℚ), 1] 2 : ℤ) : ℚ) ∧
        groupBias [(-4 : ℚ), 1] 2 = specAnchor [(-4 : ℚ), 1])
    ∧ (groupQ0 [(-4 : ℚ), 1] 2 = 0 →
        groupScale [(-4 : ℚ), 1] 2 = scaleInit [(-4 : ℚ), 1] 2 ∧
        groupBias [(-4 : ℚ), 1] 2 = 0) :=
  quantize_scale_bias_characterization [(-4 : ℚ), 1] 2

/-- C8: `is_donatable(in, out)` holds exactly when the input is marked
donatable, the item sizes agree, and the input buffer size is at most the
output byte count plus the fixed 16384-byte slack. -/
theorem is_donatable_iff (a b : ArrayMeta) :
    is_donatable a b = true ↔
      (a.donatable = true ∧ a.itemsize = b.itemsize ∧
        a.buffer_size ≤ b.nbytes + 16384) := by
  simp [is_donatable, and_assoc]

/-! ### Random engine theorems -/

/-- C7: every element of `uniform(low=0, high=1, shape, dtype, key)` is
nonnegative and strictly below 1 for each supported floating dtype: the
raw uint32 draw is divided by the float32 `maxval` constant and clamped by
`minimum` against the largest representable value below 1.0 for the target
precision before being scaled into [low, high). -/
theorem uniform_unit_interval (dtype : FloatDtype) (u : Nat)
    (hu : u < 2 ^ 32) :
    0 ≤ uniformElem 0 1 dtype u ∧ uniformElem 0 1 dtype u < 1 := by
  have hval : uniformElem 0 1 dtype u =
      min ((u : ℚ) / uniformMaxval) (belowOne dtype) := by
    unfold uniformElem
    ring
  have h1 : (0 : ℚ) ≤ (u : ℚ) / uniformMaxval := by
    unfold uniformMaxval
    positivity
  have h2 : (0 : ℚ) ≤ belowOne dtype := by
    cases dtype <;> norm_num [belowOne]
  have h3 : belowOne dtype < 1 := by
    cases dtype <;> norm_num [belowOne]
  rw [hval]
  exact ⟨le_min h1 h2, lt_of_le_of_lt (min_le_right _ _) h3⟩

/-- Witness for C7 at the draw u = 5 in float32. -/
theorem uniform_unit_interval_witness :
    (5 < 2 ^ 32)
    ∧ (0 ≤ uniformElem 0 1 FloatDtype.float32 5 ∧
        uniformElem 0 1 FloatDtype.float32 5 < 1) :=
  ⟨by norm_num, uniform_unit_interval FloatDtype.float32 5 (by norm_num)⟩

/-- C6 counterexample: `bernoulli` with a float `p` of shape [2, 2], a
requested shape [2] and no explicit key raises the shape-incompatibility
error, yet the process-wide default KeySequence state has advanced — the
key is drawn by `bits(shape, key)` before the result shape is checked. -/
theorem bernoulli_shape_error_key_advanced_counterexample :
    exceptIsError (bernoulli ⟨true, [2, 2]⟩ [2] none (0, 0)).1 = true
    ∧ (bernoulli ⟨true, [2, 2]⟩ [2] none (0, 0)).2 ≠ ((0, 0) : Key) := by
  decide

/-- C6 (amended): the raising call is not atomic with respect to the
default KeySequence: for any float `p` whose shape does not broadcast with
the requested shape to exactly that shape, `bernoulli` without an explicit
key raises, but the default key has advanced by one `next()` call to a
different key; the default key stays untouched only when an explicit key
is supplied. -/
theorem bernoulli_shape_error_advances_default_key (p : PArray)
    (shape : List Nat) (state : Key) (hp : p.dtypeFloating = true)
    (hbad : broadcastShapes shape p.shape ≠ some shape) :
    exceptIsError (bernoulli p shape none state).1 = true
    ∧ (bernoulli p shape none state).2 = (keySequenceNext state).2
    ∧ (keySequenceNext state).2 ≠ state
    ∧ ∀ k : Key, (bernoulli p shape (some k) state).2 = state := by
  obtain ⟨s1, s2⟩ := state
  have hstep : (keySequenceNext (s1, s2)).2 ≠ (s1, s2) := by
    unfold keySequenceNext splitKey
    intro heq
    have h1 : (s1 + 1) % 2 ^ 32 = s1 := congrArg Prod.fst heq
    omega
  have hnf : ¬(p.dtypeFloating = false) := by simp [hp]
  refine ⟨?_, ?_, hstep, ?_⟩
  · unfold bernoulli
    rw [if_neg hnf]
    rcases hbc : broadcastShapes shape p.shape with _ | rshape
    · simp [hbc, exceptIsError]
    · have hne : rshape ≠ shape := by
        intro h
        exact hbad (h ▸ hbc)
      simp [hbc, hne, exceptIsError]
  · unfold bernoulli
    rw [if_neg hnf]
    rcases hbc : broadcastShapes shape p.shape with _ | rshape
    · simp [hbc]
    · have hne : rshape ≠ shape := by
        intro h
        exact hbad (h ▸ hbc)
      simp [hbc, hne]
  · intro k
    unfold bernoulli
    rw [if_neg hnf]
    rcases hbc : broadcastShapes shape p.shape with _ | rshape
    · simp [hbc]
    · rcases eq_or_ne rshape shape with h | h
      · simp [hbc, h]
      · simp [hbc, h]

/-- Witness for the amended C6 at p shape [2, 2], requested shape [2],
seed key (0, 0). -/
theorem bernoulli_shape_error_advances_default_key_witness :
    ((PArray.mk true [2, 2]).dtypeFloating = true
      ∧ broadcastShapes [2] (PArray.mk true [2, 2]).shape ≠ some [2])
    ∧ (exceptIsError (bernoulli ⟨true, [2, 2]⟩ [2] none ((0, 0) : Key)).1 = true
      ∧ (bernoulli ⟨true, [2, 2]⟩ [2] none ((0, 0) : Key)).2 =
          (keySequenceNext ((0, 0) : Key)).2
      ∧ (keySequenceNext ((0, 0) : Key)).2 ≠ ((0, 0) : Key)
      ∧ ∀ k : Key,
          (bernoulli ⟨true, [2, 2]⟩ [2] (some k) ((0, 0) : Key)).2 =
            ((0, 0) : Key)) :=
  ⟨⟨by decide, by decide⟩,
    bernoulli_shape_error_advances_default_key ⟨true, [2, 2]⟩ [2] (0, 0)
      (by decide) (by decide)⟩

/-! ### Normalization and attention theorems -/

/-- C4: the `rms_norm` fallback (internally float32, value-exact in this
model) equals the specification's recipe `x / sqrt(mean(x², -1) + eps)`
when no weight is supplied, and that recipe multiplied elementwise by the
weight when one is supplied. -/
theorem rms_norm_matches_spec (x : List ℝ) (eps : ℝ) (heps : 0 < eps) :
    rms_norm x none eps = rmsNormSpecFormula x eps
    ∧ ∀ w : List ℝ, rms_norm x (some w) eps =
        (rmsNormSpecFormula x eps).zipWith (fun a b => a * b) w := by
  have hmap : x.map
      (fun v => v * rsqrt (meanList (x.map (fun t => t * t)) + eps)) =
      rmsNormSpecFormula x eps := by
    unfold rmsNormSpecFormula rsqrt
    refine List.map_congr_left ?_
    intro a _
    rw [div_eq_mul_inv]
  constructor
  · unfold rms_norm
    exact hmap
  · intro w
    have hw : rms_norm x (some w) eps =
        (x.map (fun v => v * rsqrt (meanList (x.map (fun t => t * t)) +
          eps))).zipWith (fun a b => a * b) w := rfl
    rw [hw, hmap]

/-- Witness for C4 at x = [1, 2], eps = 1. -/
theorem rms_norm_matches_spec_witness :
    (0 < (1 : ℝ))
    ∧ (rms_norm [(1 : ℝ), 2] none 1 = rmsNormSpecFormula [(1 : ℝ), 2] 1
      ∧ ∀ w : List ℝ, rms_norm [(1 : ℝ), 2] (some w) 1 =
          (rmsNormSpecFormula [(1 : ℝ), 2] 1).zipWith (fun a b => a * b) w) :=
  ⟨by norm_num, rms_norm_matches_spec [(1 : ℝ), 2] 1 (by norm_num)⟩

/-- C5: the grouped-query attention fallback — which unflattens Q to
expose the repeat-group axis and broadcasts K/V across it — computes, at
every output position, the same value as ungrouped attention run on Q with
K and V repeated along the head axis so that all three have
`n_kv_heads * n_repeats` heads. -/
theorem sdpa_grouped_matches_repeated (nRep Lk dk : Nat) (scale : ℝ)
    (q k v : Nat → Nat → Nat → Nat → ℝ) :
    ∀ b h i e, sdpaFallback nRep Lk dk scale q k v b h i e =
      sdpaUngrouped Lk dk scale q (repeatHeads nRep k) (repeatHeads nRep v)
        b h i e := by
  intro b h i e
  simp only [sdpaFallback, sdpaUngrouped, repeatHeads, Nat.div_add_mod']

/-! ### RoPE theorems -/

theorem ropeFallback_passthrough (dims : Nat) (trad : Bool) (offset : Int)
    (scale : ℝ) (invFreq : Nat → ℝ) (fwd : Bool)
    (x : Nat → Nat → Nat → ℝ) (b t d : Nat) (hd : dims ≤ d) :
    ropeFallback dims trad offset scale invFreq fwd x b t d = x b t d := by
  have h1 : ¬d < dims := not_lt.mpr hd
  have h2 : ¬d < dims / 2 := by omega
  cases trad <;> simp only [ropeFallback] <;> simp [h1, h2]

theorem ropeFallback_trad_even (dims : Nat) (offset : Int) (scale : ℝ)
    (invFreq : Nat → ℝ) (fwd : Bool) (x : Nat → Nat → Nat → ℝ)
    (b t kk : Nat) (hk : 2 * kk + 1 < dims) :
    ropeFallback dims true offset scale invFreq fwd x b t (2 * kk) =
      if fwd
      then x b t (2 * kk) * Real.cos (ropeTheta offset scale invFreq t kk) -
        x b t (2 * kk + 1) * Real.sin (ropeTheta offset scale invFreq t kk)
      else x b t (2 * kk + 1) *
          Real.sin (ropeTheta offset scale invFreq t kk) +
        x b t (2 * kk) * Real.cos (ropeTheta offset scale invFreq t kk) := by
  have h1 : 2 * kk < dims := by omega
  have h2 : 2 * kk / 2 = kk := by omega
  have h3 : 2 * kk % 2 = 0 := by omega
  simp only [ropeFallback, h2, h3, if_pos h1]
  simp

theorem ropeFallback_trad_odd (dims : Nat) (offset : Int) (scale : ℝ)
    (invFreq : Nat → ℝ) (fwd : Bool) (x : Nat → Nat → Nat → ℝ)
    (b t kk : Nat) (hk : 2 * kk + 1 < dims) :
    ropeFallback dims true offset scale invFreq fwd x b t (2 * kk + 1) =
      if fwd
      then x b t (2 * kk) * Real.sin (ropeTheta offset scale invFreq t kk) +
        x b t (2 * kk + 1) * Real.cos (ropeTheta offset scale invFreq t kk)
      else x b t (2 * kk + 1) *
          Real.cos (ropeTheta offset scale invFreq t kk) -
        x b t (2 * kk) * Real.sin (ropeTheta offset scale invFreq t kk) := by
  have h2 : (2 * kk + 1) / 2 = kk := by omega
  have h3 : (2 * kk + 1) % 2 = 1 := by omega
  simp only [ropeFallback, h2, h3, if_pos hk]
  simp

theorem ropeFallback_nt_low (dims : Nat) (offset : Int) (scale : ℝ)
    (invFreq : Nat → ℝ) (fwd : Bool) (x : Nat → Nat → Nat → ℝ)
    (b t kk : Nat) (hk : kk < dims / 2) :
    ropeFallback dims false offset scale invFreq fwd x b t kk =
      if fwd
      then x b t kk * Real.cos (ropeTheta offset scale invFreq t kk) -
        x b t (kk + dims / 2) *
          Real.sin (ropeTheta offset scale invFreq t kk)
      else x b t (kk + dims / 2) *
          Real.sin (ropeTheta offset scale invFreq t kk) +
        x b t kk * Real.cos (ropeTheta offset scale invFreq t kk) := by
  simp only [ropeFallback, if_pos hk]
  simp

theorem ropeFallback_nt_high (dims : Nat) (offset : Int) (scale : ℝ)
    (invFreq : Nat → ℝ) (fwd : Bool) (x : Nat → Nat → Nat → ℝ)
    (b t kk : Nat) (hk : kk < dims / 2) (hk2 : kk + dims / 2 < dims) :
    ropeFallback dims false offset scale invFreq fwd x b t (kk + dims / 2) =
      if fwd
      then x b t kk * Real.sin (ropeTheta offset scale invFreq t kk) +
        x b t (kk + dims / 2) *
          Real.cos (ropeTheta offset scale invFreq t kk)
      else x b t (kk + dims / 2) *
          Real.cos (ropeTheta offset scale invFreq t kk) -
        x b t kk * Real.sin (ropeTheta offset scale invFreq t kk) := by
  have h1 : ¬kk + dims / 2 < dims / 2 := by omega
  have h2 : kk + dims / 2 - dims / 2 = kk := by omega
  simp only [ropeFallback, if_neg h1, if_pos hk2, h2]
  simp

/-- C3: applying the rope fallback forward and then with `forward = false`
(the adjoint rotation that `RoPE::vjp` reuses) with the same `dims`,
layout, `offset`, `scale` and inverse frequencies recovers the input
exactly, in both the traditional interleaved layout and the split-halves
layout; channels at or beyond `dims` pass through unchanged already in the
forward direction. -/
theorem rope_forward_backward_id (dims : Nat) (traditional : Bool)
    (offset : Int) (scale : ℝ) (invFreq : Nat → ℝ)
    (x : Nat → Nat → Nat → ℝ) (hdims : 2 ∣ dims) :
    (∀ b t d, ropeFallback dims traditional offset scale invFreq false
        (ropeFallback dims traditional offset scale invFreq true x) b t d =
      x b t d)
    ∧ ∀ b t d, dims ≤ d →
        ropeFallback dims traditional offset scale invFreq true x b t d =
          x b t d := by
  obtain ⟨half, hhalf⟩ := hdims
  constructor
  · intro b t d
    cases traditional with
    | true =>
      by_cases hd : d < dims
      · have hk1 : 2 * (d / 2) + 1 < dims := by omega
        have heven := ropeFallback_trad_even dims offset scale invFreq true
          x b t (d / 2) hk1
        have hodd := ropeFallback_trad_odd dims offset scale invFreq true
          x b t (d / 2) hk1
        rw [if_pos rfl] at heven hodd
        rcases (by omega : d = 2 * (d / 2) ∨ d = 2 * (d / 2) + 1) with
          hdeq | hdeq
        · rw [hdeq,
            ropeFallback_trad_even dims offset scale invFreq false _ b t
              (d / 2) hk1,
            if_neg (by simp), heven, hodd]
          linear_combination x b t (2 * (d / 2)) *
            Real.sin_sq_add_cos_sq (ropeTheta offset scale invFreq t (d / 2))
        · rw [hdeq,
            ropeFallback_trad_odd dims offset scale invFreq false _ b t
              (d / 2) hk1,
            if_neg (by simp), heven, hodd]
          linear_combination x b t (2 * (d / 2) + 1) *
            Real.sin_sq_add_cos_sq (ropeTheta offset scale invFreq t (d / 2))
      · rw [ropeFallback_passthrough dims true offset scale invFreq false _
            b t d (by omega),
          ropeFallback_passthrough dims true offset scale invFreq true x
            b t d (by omega)]
    | false =>
      by_cases hlow : d < dims / 2
      · have hk2 : d + dims / 2 < dims := by omega
        have hl := ropeFallback_nt_low dims offset scale invFreq true x b t
          d hlow
        have hh := ropeFallback_nt_high dims offset scale invFreq true x b t
          d hlow hk2
        rw [if_pos rfl] at hl hh
        rw [ropeFallback_nt_low dims offset scale invFreq false _ b t d hlow,
          if_neg (by simp), hl, hh]
        linear_combination x b t d *
          Real.sin_sq_add_cos_sq (ropeTheta offset scale invFreq t d)
      · by_cases hdd : d < dims
        · have hkk : d - dims / 2 < dims / 2 := by omega
          have hsum : d - dims / 2 + dims / 2 = d := by omega
          have hk2 : d - dims / 2 + dims / 2 < dims := by omega
          have hl := ropeFallback_nt_low dims offset scale invFreq true x
            b t (d - dims / 2) hkk
          have hh := ropeFallback_nt_high dims offset scale invFreq true x
            b t (d - dims / 2) hkk hk2
          rw [if_pos rfl] at hl hh
          rw [hsum] at hl hh
          have hmain := ropeFallback_nt_high dims offset scale invFreq false
            (ropeFallback dims false offset scale invFreq true x) b t
            (d - dims / 2) hkk hk2
          rw [hsum, if_neg (by simp)] at hmain
          rw [hmain, hl, hh]
          linear_combination x b t d *
            Real.sin_sq_add_cos_sq
              (ropeTheta offset scale invFreq t (d - dims / 2))
        · rw [ropeFallback_passthrough dims false offset scale invFreq false
              _ b t d (by omega),
            ropeFallback_passthrough dims false offset scale invFreq true x
              b t d (by omega)]
  · intro b t d hd
    exact ropeFallback_passthrough dims traditional offset scale invFreq
      true x b t d hd

/-- Witness for C3 at dims = 4, traditional layout, offset 0, unit scale,
unit frequencies, on the channel-index tensor. -/
theorem rope_forward_backward_id_witness :
    ((2 : Nat) ∣ 4)
    ∧ ((∀ b t d, ropeFallback 4 true 0 1 (fun _ => 1) false
          (ropeFallback 4 true 0 1 (fun _ => 1) true
            (fun _ _ d => (d : ℝ))) b t d =
        (fun _ _ d => (d : ℝ)) b t d)
      ∧ ∀ b t d, 4 ≤ d →
          ropeFallback 4 true 0 1 (fun _ => 1) true
            (fun _ _ d => (d : ℝ)) b t d = (fun _ _ d => (d : ℝ)) b t d) :=
  ⟨by decide,
    rope_forward_backward_id 4 true 0 1 (fun _ => 1)
      (fun _ _ d => (d : ℝ)) (by decide)⟩

/-! ### Ellipsis expansion theorems -/

theorem takeWhile_dropWhile_split {α : Type} (p : α → Bool) (pre : List α)
    (x : α) (post : List α) (hpre : ∀ e ∈ pre, p e = true)
    (hx : p x = false) :
    (pre ++ x :: post).takeWhile p = pre ∧
    (pre ++ x :: post).dropWhile p = x :: post := by
  induction pre with
  | nil => simp [List.takeWhile_cons, List.dropWhile_cons, hx]
  | cons a rest ih =>
    have ha : p a = true := hpre a (List.mem_cons_self _ _)
    have hrest : ∀ e ∈ rest, p e = true :=
      fun e he => hpre e (List.mem_cons_of_mem _ he)
    obtain ⟨h1, h2⟩ := ih hrest
    simp [List.takeWhile_cons, List.dropWhile_cons, ha, h1, h2]

theorem dropWhile_of_two_ellipsis (l : List IndexEntry)
    (h : 2 ≤ (l.filter entryIsEllipsis).length) :
    ∃ post, l.dropWhile (fun e => !entryIsEllipsis e) =
      IndexEntry.ellipsis :: post ∧ post.any entryIsEllipsis = true := by
  induction l with
  | nil => simp at h
  | cons a rest ih =>
    by_cases ha : entryIsEllipsis a = true
    · have haa : a = IndexEntry.ellipsis := by
        cases a <;> simp [entryIsEllipsis] at ha ⊢
      refine ⟨rest, ?_, ?_⟩
      · rw [haa, List.dropWhile_cons]
        simp [entryIsEllipsis]
      · have hlen : 1 ≤ (rest.filter entryIsEllipsis).length := by
          rw [List.filter_cons, if_pos ha] at h
          simp at h
          omega
        obtain ⟨y, hy⟩ := List.exists_mem_of_length_pos hlen
        have hy2 := List.mem_filter.mp hy
        exact List.any_eq_true.mpr ⟨y, hy2.1, hy2.2⟩
    · have ha2 : entryIsEllipsis a = false := by simpa using ha
      have hfil : (a :: rest).filter entryIsEllipsis =
          rest.filter entryIsEllipsis := by
        rw [List.filter_cons, if_neg (by simp [ha2])]
      rw [hfil] at h
      obtain ⟨post, h1, h2⟩ := ih h
      refine ⟨post, ?_, h2⟩
      rw [List.dropWhile_cons, if_pos (by simp [ha2]), h1]

/-- C9: on an index tuple containing exactly one ellipsis whose other
non-None entries do not exceed the source rank, `mlx_expand_ellipsis`
replaces the ellipsis in place with full slices, exactly rank minus the
number of other non-None entries of them, and reports a non-None index
count equal to the source rank; any index tuple containing more than one
ellipsis is rejected with an invalid-argument error. -/
theorem mlx_expand_ellipsis_correct (shape : List Int)
    (entries pre post : List IndexEntry)
    (hsplit : entries = pre ++ IndexEntry.ellipsis :: post)
    (hpre : ∀ e ∈ pre, entryIsEllipsis e = false)
    (hpost : ∀ e ∈ post, entryIsEllipsis e = false)
    (hcount : countNonNone pre + countNonNone post ≤ shape.length) :
    (mlx_expand_ellipsis shape entries =
      .ok (shape.length,
        pre ++ expandSlices shape (countNonNone pre) (countNonNone post)
          ++ post)
      ∧ (expandSlices shape (countNonNone pre) (countNonNone post)).length =
          shape.length - (countNonNone pre + countNonNone post))
    ∧ ∀ l : List IndexEntry, 2 ≤ (l.filter entryIsEllipsis).length →
        mlx_expand_ellipsis shape l =
          .error "An index can only have a single ellipsis (...)" := by
  constructor
  · obtain ⟨htake, hdrop⟩ := takeWhile_dropWhile_split
      (fun e => !entryIsEllipsis e) pre IndexEntry.ellipsis post
      (fun e he => by simp [hpre e he]) (by simp [entryIsEllipsis])
    have hany : post.any entryIsEllipsis = false := by
      rw [List.any_eq_false]
      intro e he
      simp [hpost e he]
    have hslice : (expandSlices shape (countNonNone pre)
        (countNonNone post)).length =
        shape.length - (countNonNone pre + countNonNone post) := by
      unfold expandSlices
      rw [List.length_map, List.length_take, List.length_drop]
      omega
    refine ⟨?_, hslice⟩
    unfold mlx_expand_ellipsis
    rw [hsplit, hdrop, htake]
    simp only [hany, Bool.false_eq_true, if_false]
    rw [hslice]
    have hcnt : countNonNone pre + countNonNone post +
        (shape.length - (countNonNone pre + countNonNone post)) =
        shape.length := by omega
    rw [hcnt]
  · intro l hl
    obtain ⟨post2, hd, hany⟩ := dropWhile_of_two_ellipsis l hl
    unfold mlx_expand_ellipsis
    rw [hd]
    simp only [hany, if_true]

/-- Witness for C9: a rank-3 source indexed by [0, ..., 1]; the ellipsis
expands to the single full slice over the middle axis. -/
theorem mlx_expand_ellipsis_correct_witness :
    (([IndexEntry.intIdx 0, IndexEntry.ellipsis, IndexEntry.intIdx 1] :
        List IndexEntry) =
      [IndexEntry.intIdx 0] ++ IndexEntry.ellipsis :: [IndexEntry.intIdx 1]
    ∧ countNonNone [IndexEntry.intIdx 0] +
        countNonNone [IndexEntry.intIdx 1] ≤
        ([2, 3, 4] : List Int).length)
    ∧ ((mlx_expand_ellipsis [2, 3, 4]
        [IndexEntry.intIdx 0, IndexEntry.ellipsis, IndexEntry.intIdx 1] =
      .ok (([2, 3, 4] : List Int).length,
        [IndexEntry.intIdx 0] ++
          expandSlices [2, 3, 4] (countNonNone [IndexEntry.intIdx 0])
            (countNonNone [IndexEntry.intIdx 1]) ++ [IndexEntry.intIdx 1])
      ∧ (expandSlices [2, 3, 4] (countNonNone [IndexEntry.intIdx 0])
          (countNonNone [IndexEntry.intIdx 1])).length =
          ([2, 3, 4] : List Int).length -
            (countNonNone [IndexEntry.intIdx 0] +
              countNonNone [IndexEntry.intIdx 1]))
    ∧ ∀ l : List IndexEntry, 2 ≤ (l.filter entryIsEllipsis).length →
        mlx_expand_ellipsis [2, 3, 4] l =
          .error "An index can only have a single ellipsis (...)") :=
  ⟨⟨by decide, by decide⟩,
    mlx_expand_ellipsis_correct [2, 3, 4]
      [IndexEntry.intIdx 0, IndexEntry.ellipsis, IndexEntry.intIdx 1]
      [IndexEntry.intIdx 0] [IndexEntry.intIdx 1]
      (by decide) (by decide) (by decide) (by decide)⟩

end Mlx
